import Mathlib

/-!
Verification development for the DISP-TR phase-dispersion audio effect
(`Source/PluginProcessor.cpp`, `Source/PluginProcessor.h`).

Shallow embedding conventions:
* C++ `float` / `double` sample and parameter values are modelled as exact
  rationals (`ℚ`); overflow / rounding of IEEE floats is idealised away.
* Transcendental library calls (`std::tan`, `std::pow`, `std::log2`,
  `std::exp`, `std::cos`, ...) are supplied by an abstract structure
  `RMath` of real-math primitives, so every definition stays computable;
  theorems that need analytic facts about these primitives take them as
  explicit hypotheses (`RMathSane`).
* `std::vector<float>` buffers become `List ℚ`, integer state becomes
  `ℤ` / `ℕ` matching the C++ comparisons.
-/

/-- `juce::jlimit (lo, hi, v)` on rationals: `v < lo ? lo : hi < v ? hi : v`. -/
def jlimit (lo hi v : ℚ) : ℚ :=
  if v < lo then lo else if hi < v then hi else v

/-- `juce::jlimit` on integers. -/
def jlimitI (lo hi v : ℤ) : ℤ :=
  if v < lo then lo else if hi < v then hi else v

/-- `juce::jmax` on integers. -/
def jmaxI (a b : ℤ) : ℤ := max a b

/-- `juce::jmap (v01, target0, target1) = target0 + v01 * (target1 - target0)`. -/
def jmap (v01 target0 target1 : ℚ) : ℚ := target0 + v01 * (target1 - target0)

/-- `std::copysign (m, s)`: magnitude of `m` with the sign of `s`
(`ℚ` has no negative zero, so `s = 0` counts as positive). -/
def copysignQ (m s : ℚ) : ℚ := if s < 0 then -|m| else |m|

/-- `std::lround` / `std::round`: round half away from zero, as an integer. -/
def roundQ (x : ℚ) : ℤ := if 0 ≤ x then ⌊x + 1/2⌋ else -⌊-x + 1/2⌋

/-- C cast `(int) x`: truncation toward zero. -/
def truncQ (x : ℚ) : ℤ := x.num / x.den

/-- Abstract interface to the transcendental float routines the C++ code
calls.  Every definition below is parameterised by an `M : RMath`, which
keeps the embedding computable; analytic properties of the primitives are
assumed only where a theorem needs them. -/
structure RMath where
  pi : ℚ
  tan : ℚ → ℚ
  cos : ℚ → ℚ
  sin : ℚ → ℚ
  sqrt : ℚ → ℚ
  exp : ℚ → ℚ
  log : ℚ → ℚ
  log2 : ℚ → ℚ
  powf : ℚ → ℚ → ℚ
  isFinite : ℚ → Bool

/-- A concrete (degenerate but well-typed) instance of the primitives, used
only to instantiate witnesses on closed inputs. -/
def trivialRMath : RMath where
  pi := 0
  tan := fun _ => 0
  cos := fun _ => 0
  sin := fun _ => 0
  sqrt := fun _ => 0
  exp := fun _ => 1
  log := fun _ => 0
  log2 := fun _ => 0
  powf := fun _ _ => 1
  isFinite := fun _ => true

/-! ### The all-pass coefficient formula, `DisperserAudioProcessor::calcAllPassCoeff`

```cpp
float DisperserAudioProcessor::calcAllPassCoeff (float frequency, float sampleRate) noexcept
{
    const float f = juce::jlimit (20.0f, 0.49f * sampleRate, frequency);
    const float t = std::tan (juce::MathConstants<float>::pi * f / sampleRate);
    if (! std::isfinite (t))
        return 0.0f;
    return (1.0f - t) / (1.0f + t);
}
```
-/

def calcAllPassCoeff (M : RMath) (frequency sampleRate : ℚ) : ℚ :=
  let f := jlimit 20 (0.49 * sampleRate) frequency
  let t := M.tan (M.pi * f / sampleRate)
  if ¬ (M.isFinite t = true) then 0
  else (1 - t) / (1 + t)

/-- Second definition for claim C3, written from the specification's words
("the all-pass `a` coefficient for one stage, derived from a target
frequency via the bilinear-transform identity
`a = (1 - tan(π·f/sr)) / (1 + tan(π·f/sr))`", with `f` first clamped into
`[20 Hz, 0.49·sampleRate]`, and a non-finite `tan()` falling back to a
coefficient of exactly `0.0`). -/
def specStageCoefficient (M : RMath) (frequency sampleRate : ℚ) : ℚ :=
  let fClamped := max 20 (min (0.49 * sampleRate) frequency)
  let tanValue := M.tan (M.pi * fClamped / sampleRate)
  if M.isFinite tanValue then (1 - tanValue) / (1 + tanValue) else 0

/-! ### The coefficient mapper, `DisperserAudioProcessor::updateCoefficients`

Faithful embedding of the per-stage frequency/coefficient derivation
(`PluginProcessor.cpp` lines 155-198).  The intermediate quantities are
split into named definitions so theorems can speak about the derived
per-stage corner frequencies, exactly as computed at line 195. -/

/-- `logPos` (line 169): position of the clamped centre on a log scale. -/
def ucLogPos (M : RMath) (sr center : ℚ) : ℚ :=
  M.log2 (center / 20) / M.log2 ((0.49 * sr) / 20)

/-- `lowComp` (line 170): low-frequency compensation factor. -/
def ucLowComp (M : RMath) (sr center : ℚ) : ℚ :=
  M.powf (jlimit 0 1 (1 - ucLogPos M sr center)) 1.15

/-- `shapeStrength` (line 171). -/
def ucShapeStrength (M : RMath) (sr center : ℚ) : ℚ :=
  1 + 0.95 * ucLowComp M sr center

/-- `shapeComp` (line 172): compensated shape, clamped to `[0, 1]`. -/
def ucShapeComp (M : RMath) (sr center shape : ℚ) : ℚ :=
  jlimit 0 1 (0.5 + (shape - 0.5) * ucShapeStrength M sr center)

/-- `spreadOct` (lines 177-179): global width in octaves. -/
def ucSpreadOct (M : RMath) (sr center shape : ℚ) : ℚ :=
  jmap (ucShapeComp M sr center shape) (4 + 1.1 * ucLowComp M sr center) 0.12

/-- `warpGamma` (line 180): warp exponent. -/
def ucWarpGamma (M : RMath) (sr center shape : ℚ) : ℚ :=
  jmap (ucShapeComp M sr center shape) 0.45 (3 + 0.8 * ucLowComp M sr center)

/-- `u` (line 191): stage index mapped to `[-1, 1]`. -/
def ucStageU (nStages : ℕ) (i : ℕ) : ℚ :=
  2 * ((i : ℚ) / (max 1 (nStages - 1) : ℕ)) - 1

/-- `warped` (lines 192-193): `copysign (|u| ^ gamma, u)`. -/
def ucStageWarped (M : RMath) (sr center shape : ℚ) (nStages i : ℕ) : ℚ :=
  copysignQ (M.powf |ucStageU nStages i| (ucWarpGamma M sr center shape))
    (ucStageU nStages i)

/-- The derived per-stage corner frequency (lines 194-195):
`clamp (center * 2 ^ (0.5 * spreadOct * warped), 20, 0.49 * sr)`. -/
def ucStageFreq (M : RMath) (sr center shape : ℚ) (nStages i : ℕ) : ℚ :=
  jlimit 20 (0.49 * sr)
    (center * M.powf 2 (0.5 * ucSpreadOct M sr center shape *
      ucStageWarped M sr center shape nStages i))

/-- The clamped centre frequency (line 164). -/
def ucCenter (sr freqHz : ℚ) : ℚ := jlimit 20 (0.49 * sr) freqHz

/-- The list of per-stage corner frequencies the mapper derives: the single
clamped centre when `nStages = 1` (line 184 converts exactly the centre),
otherwise the warped/spread frequencies of lines 189-195. -/
def ucStageFreqList (M : RMath) (sr freqHz shapeNorm : ℚ) (stages : ℕ) : List ℚ :=
  let nStages := max 1 stages
  let center := ucCenter sr freqHz
  let shape := jlimit 0 1 shapeNorm
  if nStages = 1 then [center]
  else (List.range nStages).map (ucStageFreq M sr center shape nStages)

/-- `DisperserAudioProcessor::updateCoefficients` (lines 155-198), returning
the `stageCoeff` vector: one bilinear-transform coefficient per derived
stage frequency. -/
def updateCoefficients (M : RMath) (sr freqHz shapeNorm : ℚ) (stages : ℕ) : List ℚ :=
  (ucStageFreqList M sr freqHz shapeNorm stages).map
    (fun f => calcAllPassCoeff M f sr)

/-- `Allpass1`: first-order all-pass cell, `y = -a*x + x1 + a*y1`. -/
structure Allpass1 where
  a : ℚ := 0
  x1 : ℚ := 0
  y1 : ℚ := 0
deriving DecidableEq

/-- `Allpass1::process`. -/
def Allpass1.process (s : Allpass1) (x : ℚ) : ℚ × Allpass1 :=
  let y := -s.a * x + s.x1 + s.a * s.y1
  (y, { s with x1 := x, y1 := y })

/-- `Allpass1::reset`: zero the delay registers, keep the coefficient. -/
def Allpass1.reset (s : Allpass1) : Allpass1 := { s with x1 := 0, y1 := 0 }

/-- `StageState`: one stage's left/right channel cells. -/
structure StageState where
  left : Allpass1 := {}
  right : Allpass1 := {}
deriving DecidableEq

/-- `NetworkInstance`: one chain's ordered stage states. -/
structure NetworkInstance where
  stages : List StageState := []
deriving DecidableEq

/-- `NetworkInstance::ensureStages`: resize (to fresh zero state) only when
the stored size differs. -/
def NetworkInstance.ensureStages (net : NetworkInstance) (n : ℕ) : NetworkInstance :=
  if net.stages.length = n then net else { stages := List.replicate n {} }

/-- `NetworkInstance::resetActive`: reset the first
`clamp (activeStages, 0, size)` stages' delay registers. -/
def NetworkInstance.resetActive (net : NetworkInstance) (activeStages : ℤ) : NetworkInstance :=
  let n := (jlimitI 0 net.stages.length activeStages).toNat
  { stages := net.stages.mapIdx (fun i s =>
      if i < n then { s with left := s.left.reset, right := s.right.reset } else s) }

/-- One `SecondOrderAllPassCascade::State` element. -/
structure CascadeState4 where
  xnz2 : ℚ := 0
  xnz1 : ℚ := 0
  ynz2 : ℚ := 0
  ynz1 : ℚ := 0
deriving DecidableEq

/-- `SecondOrderAllPassCascade` (disabled in the active processing paths,
but written to by `updateCoefficientsNow`). -/
structure SecondOrderAllPassCascade where
  states : List CascadeState4 := []
  a0 : ℚ := 0
  a1 : ℚ := 0
  sampleRate : ℤ := 48000
  count : ℤ := 0
  maxCount : ℤ := 64
deriving DecidableEq

/-- `SecondOrderAllPassCascade::init`. -/
def SecondOrderAllPassCascade.initC (sr maxStages : ℤ) : SecondOrderAllPassCascade :=
  { states := List.replicate maxStages.toNat {}
    a0 := 0, a1 := 0, sampleRate := sr, count := 0, maxCount := maxStages }

/-- `SecondOrderAllPassCascade::set`. -/
def SecondOrderAllPassCascade.set (c : SecondOrderAllPassCascade) (M : RMath)
    (frequency q : ℚ) (numStages : ℤ) : SecondOrderAllPassCascade :=
  let w := 2 * M.pi * frequency / (c.sampleRate : ℚ)
  let cosw := M.cos w
  let alpha := M.sin w / (2 * q)
  let a2 := 1 / (1 + alpha)
  { c with a0 := (1 - alpha) * a2, a1 := -2 * cosw * a2,
           count := jlimitI 0 c.states.length numStages }

/-- `SecondOrderAllPassCascade::reset`. -/
def SecondOrderAllPassCascade.resetC (c : SecondOrderAllPassCascade) : SecondOrderAllPassCascade :=
  { c with states := List.replicate c.states.length {} }

/-- `DisperserAudioProcessor::Engine`: one complete processing context
(field-for-field from the header, minus the profiling counters). -/
structure Engine where
  sampleRate : ℚ := 0
  maxWindowSamples : ℕ := 1
  amount : ℤ := 0
  activeStages : ℤ := 0
  series : ℤ := 1
  reverse : Bool := false
  stageCoeffA : List ℚ := []
  nets : List NetworkInstance := List.replicate 4 {}
  winN : ℕ := 1
  hopH : ℕ := 1
  inWritePos : ℕ := 0
  hopCounter : ℕ := 0
  inRingL : List ℚ := []
  inRingR : List ℚ := []
  olaRingL : List ℚ := []
  olaRingR : List ℚ := []
  olaReadPos : ℕ := 0
  olaWritePos : ℕ := 0
  framesReady : Bool := false
  frameL : List ℚ := []
  frameR : List ℚ := []
  winSqrt : List ℚ := []
  resoLeft : Allpass1 := {}
  resoRight : Allpass1 := {}
  resoMix : ℚ := 0
  resoMixTarget : ℚ := 0
  cascadeLeft : SecondOrderAllPassCascade := {}
  cascadeRight : SecondOrderAllPassCascade := {}
  cascadeMix : ℚ := 0
  cascadeMixTarget : ℚ := 0
  cachedFreq : ℚ := -1
  cachedShape : ℚ := -1
  cachedFreqBin : ℤ := -(2 ^ 31)
  cachedShapeBin : ℤ := -(2 ^ 31)
deriving DecidableEq

/-- `Engine::amountNorm`: `clamp (a / kAmountMax, 0, 1)` with `kAmountMax = 256`. -/
def Engine.amountNorm (a : ℤ) : ℚ := jlimit 0 1 ((a : ℚ) / 256)

/-- `Engine::windowSamplesFromAmount`: analysis-window length (in samples)
derived from the stage count, clamped to `[1, maxWindowSamples]`. -/
def Engine.windowSamplesFromAmount (M : RMath) (e : Engine) (a : ℤ) : ℤ :=
  let n := Engine.amountNorm a
  let winMs := 5 + 245 * M.powf n 0.70
  let ws := roundQ ((winMs / 1000) * e.sampleRate)
  jlimitI 1 e.maxWindowSamples ws

/-- `Engine::allpassCoeffFromFreq`: bilinear coefficient with the frequency
clamped to `[20, 20000]` and the result clamped to `[-0.9999, 0.9999]`. -/
def Engine.allpassCoeffFromFreq (M : RMath) (freqHz sr : ℚ) : ℚ :=
  let f := jlimit 20 20000 freqHz
  let t := M.tan (M.pi * f / sr)
  jlimit (-0.9999) 0.9999 ((1 - t) / (1 + t))

/-- `Engine::makeSqrtHann`: square-root-Hann window of length `n`. -/
def Engine.makeSqrtHann (M : RMath) (n : ℕ) : List ℚ :=
  if n ≤ 1 then [1]
  else (List.range n).map (fun k =>
    M.sqrt (max 0 (0.5 - 0.5 * M.cos (2 * M.pi * (k : ℚ) / ((n : ℚ) - 1)))))

/-- `Engine::resetReverseOLA`: size and zero the input ring (length `winN`),
the OLA accumulation ring (length `max 2 (2*winN)`), reset the cursors
(`olaWritePos = olaReadPos + winN`, wrapped) and clear `framesReady`. -/
def Engine.resetReverseOLA (M : RMath) (e : Engine) (newN : ℤ) : Engine :=
  let winN := (jlimitI 1 e.maxWindowSamples newN).toNat
  let hopH := max 1 (winN / 2)
  let olaSize := max 2 (2 * winN)
  let olaWritePos0 := 0 + winN
  { e with
    winN := winN
    hopH := hopH
    inRingL := List.replicate winN 0
    inRingR := List.replicate winN 0
    inWritePos := 0
    hopCounter := 0
    olaRingL := List.replicate olaSize 0
    olaRingR := List.replicate olaSize 0
    olaReadPos := 0
    olaWritePos := if olaWritePos0 ≥ olaSize then olaWritePos0 - olaSize else olaWritePos0
    framesReady := false
    frameL := List.replicate winN 0
    frameR := List.replicate winN 0
    winSqrt := Engine.makeSqrtHann M winN }

/-- `Engine::ensureAllStages`: set `activeStages = clamp (n, 0, 256)` and
resize the coefficient vector and every network to that size. -/
def Engine.ensureAllStages (e : Engine) (numStages : ℤ) : Engine :=
  let activeStages := jlimitI 0 256 numStages
  { e with
    activeStages := activeStages
    stageCoeffA := if e.stageCoeffA.length = activeStages.toNat then e.stageCoeffA
                   else List.replicate activeStages.toNat 0
    nets := e.nets.map (fun net => net.ensureStages activeStages.toNat) }

/-- `Engine::resetAllNetworks`. -/
def Engine.resetAllNetworks (e : Engine) : Engine :=
  { e with nets := e.nets.map (fun net => net.resetActive e.activeStages) }

/-- `Engine::applyCoefficientsToNetworks` (with the compile-time constant
`kUseActiveStageCoeffPropagation = false`: a network whose stored size
differs from `activeStages` is skipped). -/
def Engine.applyCoefficientsToNetworks (e : Engine) : Engine :=
  let numStages := e.activeStages
  if numStages ≤ 0 then e
  else { e with nets := e.nets.map (fun net =>
    if ¬ (net.stages.length = numStages.toNat) then net
    else { stages := net.stages.mapIdx (fun i s =>
      if i < numStages.toNat then
        let av := e.stageCoeffA.getD i 0
        { s with left := { s.left with a := av }, right := { s.right with a := av } }
      else s) }) }

/-- `Engine::updateCoefficientsNow` (lines 3072-3310): derive one
coefficient per active stage from the centre frequency and shape
(geometric spread collapsed by shape, warp exponent `gamma`, geometric
"pinch" blend toward the centre), then propagate to the networks. -/
def Engine.updateCoefficientsNow (M : RMath) (e : Engine) (a : ℤ) (freqHz shape : ℚ) : Engine :=
  let numStages := e.activeStages
  if numStages ≤ 0 ∨ e.sampleRate ≤ 0 then e
  else
    let n := Engine.amountNorm a
    let baseSpreadOct := 0.10 + 2.90 * M.powf n 0.50
    let shapeNorm := jlimit 0 1 shape
    let spreadOct := baseSpreadOct * (1 - shapeNorm * 0.99)
    let gamma := 1 + shapeNorm * 4
    let fMin0 := freqHz * M.powf 2 (-spreadOct)
    let fMax0 := freqHz * M.powf 2 spreadOct
    let adj1 : ℚ × ℚ := if fMin0 < 20 then (20, freqHz * freqHz / 20) else (fMin0, fMax0)
    let adj2 : ℚ × ℚ := if adj1.2 > 20000 then (freqHz * freqHz / 20000, 20000) else adj1
    let fMin1 := jlimit 20 20000 adj2.1
    let fMax1 := jlimit 20 20000 adj2.2
    let fMax2 := if fMax1 ≤ fMin1 * 1.0001 then fMin1 * 1.0001 else fMax1
    let fSpan := fMax2 / fMin1
    let denom := max 1 (numStages.toNat - 1)
    let pinch := shapeNorm * 0.95
    let coeffs := (List.range numStages.toNat).map (fun (i : ℕ) =>
      let pos := (i : ℚ) / (denom : ℚ)
      let shaped := M.powf pos gamma
      let sf0 := jlimit 20 20000 (fMin1 * M.powf fSpan shaped)
      let sf := if pinch > 1e-6 then
          let lf := M.log sf0
          let lc := M.log (max 1e-6 freqHz)
          jlimit 20 20000 (M.exp ((1 - pinch) * lf + pinch * lc))
        else sf0
      let aa0 := Engine.allpassCoeffFromFreq M sf e.sampleRate
      let t := (1 - aa0) / (1 + aa0)
      let tScaled := t * 1
      let aa1 := (1 - tScaled) / (1 + tScaled)
      jlimit (-0.9999) 0.9999 aa1)
    let aaReso := Engine.allpassCoeffFromFreq M freqHz e.sampleRate
    let e1 := { e with
      stageCoeffA := coeffs
      cascadeMixTarget := 0
      resoMixTarget := 0
      resoLeft := { e.resoLeft with a := aaReso }
      resoRight := { e.resoRight with a := aaReso }
      cascadeLeft := e.cascadeLeft.set M freqHz 0.5 0
      cascadeRight := e.cascadeRight.set M freqHz 0.5 0 }
    e1.applyCoefficientsToNetworks

/-- `Engine::init` (line 2926): full reinitialisation for a (finite,
positive) sample rate; the original bails out on a degenerate rate. -/
def Engine.init (M : RMath) (e0 : Engine) (sr : ℚ) : Engine :=
  if sr ≤ 0 then e0
  else
    let e1 := { e0 with
      sampleRate := sr
      maxWindowSamples := (jlimitI 1 (2 ^ 20) ⌈(0.250 : ℚ) * sr⌉).toNat
      amount := 0, activeStages := 0, series := 1, reverse := false
      stageCoeffA := List.replicate 256 0
      nets := e0.nets.map (fun net => net.ensureStages 256)
      cachedFreq := -1, cachedShape := -1
      cachedFreqBin := -(2 ^ 31), cachedShapeBin := -(2 ^ 31)
      resoLeft := e0.resoLeft.reset, resoRight := e0.resoRight.reset
      resoMix := 0, resoMixTarget := 0
      cascadeLeft := (SecondOrderAllPassCascade.initC (truncQ sr) 64).resetC
      cascadeRight := (SecondOrderAllPassCascade.initC (truncQ sr) 64).resetC
      cascadeMix := 0, cascadeMixTarget := 0 }
    Engine.resetReverseOLA M e1 1

/-- `Engine::setTopology` (line 2974): clamp and store the new topology,
resize and reset the networks, compute initial coefficients, and (in
reverse mode) fully reset the OLA state to the window for this stage
count. -/
def Engine.setTopology (M : RMath) (e : Engine) (newAmount newSeries : ℤ)
    (newReverse : Bool) (initFreq initShape : ℚ) : Engine :=
  let amount := jlimitI 0 256 newAmount
  let series := jlimitI 1 4 newSeries
  let e1 := { e with amount := amount, series := series, reverse := newReverse }
  let e2 := e1.ensureAllStages amount
  let e3 := Engine.updateCoefficientsNow M e2 amount initFreq initShape
  let e4 := e3.resetAllNetworks
  let e5 := if e4.reverse then Engine.resetReverseOLA M e4 (e4.windowSamplesFromAmount M amount)
            else e4
  { e5 with
    cachedFreq := initFreq, cachedShape := initShape
    cachedFreqBin := -(2 ^ 31), cachedShapeBin := -(2 ^ 31) }

/-! ### Per-sample processing (mono path)

`PROCESS_CHAIN_MONO` (line 2176) runs one chain's first `numStages` left
cells over a sample in order (the macro's unroll-by-two is a pure
performance transformation of the same sequential recurrence). -/

/-- Run the first `numStages` stages' left cells of one chain over a
sample, returning the processed sample and the updated stage list. -/
def runStagesMono : ℕ → List StageState → ℚ → ℚ × List StageState
  | 0, ss, x => (x, ss)
  | _ + 1, [], x => (x, [])
  | k + 1, s :: rest, x =>
      let c := s.left.process x
      let r := runStagesMono k rest c.1
      (r.1, { s with left := c.2 } :: r.2)

/-- Run a sample through the first `sCount` chain instances in sequence
(the source unrolls this as a `switch` on the series count). -/
def chainsMono (numStages : ℕ) : ℕ → List NetworkInstance → ℚ → ℚ × List NetworkInstance
  | 0, nets, x => (x, nets)
  | _ + 1, [], x => (x, [])
  | c + 1, net :: rest, x =>
      let s := runStagesMono numStages net.stages x
      let r := chainsMono numStages c rest s.1
      (r.1, { stages := s.2 } :: r.2)

/-- Mutable loop state of the forward (non-reverse) block loop: the chain
networks, the resonator cell, and the loop-local `resoMixCur`. -/
structure FwdLoopSt where
  nets : List NetworkInstance
  resoLeft : Allpass1
  resoMixCur : ℚ
deriving DecidableEq

/-- One forward block loop (lines 3816-3986, mono): per sample, run the
chains, write `x * outputGain`, optionally apply the resonator mix branch
(only the post-warm-up loop variant has it), advance `resoMixCur`. -/
def forwardLoopMono (numStages sCount : ℕ) (outputGain step mixThreshold : ℚ)
    (withMix : Bool) : FwdLoopSt → List ℚ → List ℚ × FwdLoopSt
  | st, [] => ([], st)
  | st, x :: xs =>
      let ch := chainsMono numStages sCount st.nets x
      let out0 := ch.1 * outputGain
      let branch : ℚ × Allpass1 :=
        if withMix ∧ st.resoMixCur > mixThreshold then
          let orig := out0
          let pr := st.resoLeft.process orig
          ((1 - st.resoMixCur) * orig + st.resoMixCur * pr.1, pr.2)
        else (out0, st.resoLeft)
      let st2 : FwdLoopSt :=
        { nets := ch.2, resoLeft := branch.2, resoMixCur := st.resoMixCur + step }
      let rest := forwardLoopMono numStages sCount outputGain step mixThreshold withMix st2 xs
      (branch.1 :: rest.1, rest.2)

/-- `Engine::olaPopStereo` (line 3678): zero until a first frame is ready,
otherwise read (and clear) the accumulator at the read cursor and advance
it with wrap-around. -/
def Engine.olaPopStereo (e : Engine) : (ℚ × ℚ) × Engine :=
  if e.framesReady = false then ((0, 0), e)
  else
    let outL := e.olaRingL.getD e.olaReadPos 0
    let outR := e.olaRingR.getD e.olaReadPos 0
    let rL := e.olaRingL.set e.olaReadPos 0
    let rR := e.olaRingR.set e.olaReadPos 0
    let rp := e.olaReadPos + 1
    ((outL, outR),
     { e with
       olaRingL := rL
       olaRingR := rR
       olaReadPos := if rp ≥ rL.length then 0 else rp })

/-- `Engine::grabLastNToFrame` (line 3451): extract the analysis window
oldest-to-newest from the input ring, weighted by the sqrt-Hann window. -/
def Engine.grabLastNToFrame (e : Engine) : Engine :=
  let firstLen := e.winN - e.inWritePos
  let fL := (List.range e.winN).map (fun i =>
    if i < firstLen then e.inRingL.getD (e.inWritePos + i) 0 * e.winSqrt.getD i 0
    else e.inRingL.getD (i - firstLen) 0 * e.winSqrt.getD i 0)
  let fR := (List.range e.winN).map (fun i =>
    if i < firstLen then e.inRingR.getD (e.inWritePos + i) 0 * e.winSqrt.getD i 0
    else e.inRingR.getD (i - firstLen) 0 * e.winSqrt.getD i 0)
  { e with frameL := fL, frameR := fR }

/-- `Engine::processFrameReverseIR` (line 3480, mono variant): run the
frame through the current all-pass networks in reverse sample order
(index `winN - 1 - n` processed at step `n`), writing the result into
both frame channels. -/
def Engine.processFrameReverseIR (e : Engine) : Engine :=
  if e.activeStages ≤ 0 then e
  else
    let numStages := e.activeStages.toNat
    let sCount := (jlimitI 1 4 e.series).toNat
    let result := (List.range e.winN).foldl
      (fun (acc : List NetworkInstance × List ℚ × List ℚ) n =>
        let ri := e.winN - 1 - n
        let x := acc.2.1.getD ri 0
        let ch := chainsMono numStages sCount acc.1 x
        (ch.2, acc.2.1.set ri ch.1, acc.2.2.set ri ch.1))
      (e.nets, e.frameL, e.frameR)
    { e with nets := result.1, frameL := result.2.1, frameR := result.2.2 }

/-- The accumulation loop of `Engine::olaAddFrame`: add `frame[i] * win[i]`
into the ring at position `wIdx i`, for `i = 0, ..., count - 1` in order
(`wIdx` encodes the source's contiguous-then-wrap-around index split). -/
def olaAddInto (wIdx : ℕ → ℕ) (win frame : List ℚ) : ℕ → List ℚ → List ℚ
  | 0, r => r
  | n + 1, r =>
      let r2 := olaAddInto wIdx win frame n r
      r2.set (wIdx n) (r2.getD (wIdx n) 0 + frame.getD n 0 * win.getD n 0)

/-- The write position for frame sample `i` in `Engine::olaAddFrame`: the
contiguous region `[olaWritePos, olaWritePos + firstLen)` first, then the
wrap-around tail starting at ring position 0. -/
def olaWriteIndex (firstLen olaWritePos : ℕ) (i : ℕ) : ℕ :=
  if i < firstLen then olaWritePos + i else i - firstLen

/-- `Engine::olaAddFrame` (line 3635): accumulate the windowed frame into
the OLA ring at the write cursor (contiguous part, then wrap-around tail),
advance the write cursor by one hop, and mark frames ready. -/
def Engine.olaAddFrame (e : Engine) : Engine :=
  let olaSize := e.olaRingL.length
  let firstLen := min e.winN (olaSize - e.olaWritePos)
  let wp0 := e.olaWritePos + e.hopH
  { e with
    olaRingL := olaAddInto (olaWriteIndex firstLen e.olaWritePos) e.winSqrt e.frameL e.winN e.olaRingL
    olaRingR := olaAddInto (olaWriteIndex firstLen e.olaWritePos) e.winSqrt e.frameR e.winN e.olaRingR
    olaWritePos := if wp0 ≥ olaSize then wp0 - olaSize else wp0
    framesReady := true }

/-- One sample of the reverse block loop (lines 4261-4324, mono): push the
input into the ring, pop one synthesized output sample, apply the output
gain (and, in the post-warm-up loop variant, the resonator mix branch),
then run a full analysis frame every `hopH` samples. -/
def Engine.reverseStepMono (e : Engine) (outputGain step mixThreshold : ℚ)
    (withMix : Bool) (resoMixCur : ℚ) (x : ℚ) : (ℚ × ℚ) × Engine :=
  let e1 := { e with
    inRingL := e.inRingL.set e.inWritePos x
    inRingR := e.inRingR.set e.inWritePos x }
  let wp := e1.inWritePos + 1
  let e2 := { e1 with inWritePos := if wp ≥ e1.winN then 0 else wp }
  let pop := e2.olaPopStereo
  let e3 : Engine := pop.2
  let out0 := pop.1.1 * outputGain
  let branch : ℚ × Allpass1 :=
    if withMix ∧ resoMixCur > mixThreshold then
      let orig := out0
      let pr := e3.resoLeft.process orig
      ((1 - resoMixCur) * orig + resoMixCur * pr.1, pr.2)
    else (out0, e3.resoLeft)
  let e4 := { e3 with resoLeft := branch.2, hopCounter := e3.hopCounter + 1 }
  let e5 :=
    if e4.hopCounter ≥ e4.hopH then
      (({ e4 with hopCounter := 0 }).grabLastNToFrame).processFrameReverseIR.olaAddFrame
    else e4
  ((branch.1, resoMixCur + step), e5)

/-- The reverse block loop folded over the input samples. -/
def Engine.reverseLoopMono (outputGain step mixThreshold : ℚ) (withMix : Bool) :
    Engine → ℚ → List ℚ → List ℚ × ℚ × Engine
  | e, cur, [] => ([], cur, e)
  | e, cur, x :: xs =>
      let r := e.reverseStepMono outputGain step mixThreshold withMix cur x
      let rest := Engine.reverseLoopMono outputGain step mixThreshold withMix r.2 r.1.2 xs
      (r.1.1 :: rest.1, rest.2)

/-- `Engine::processBlock` (line 3701, mono): early return when the stage
count is not positive; otherwise re-derive coefficients when the quantized
frequency/shape bin changed, then run either the forward chain loop or the
reverse OLA loop (each split into a warm-up part without the resonator mix
branch and a main part with it).  The loop-local `resoMixCur` is never
stored back to the engine, exactly as in the source. -/
def Engine.processBlock (M : RMath) (e : Engine) (input : List ℚ)
    (freqNow shapeNow outputGain : ℚ) : List ℚ × Engine :=
  let numSamples := input.length
  let resoMixCur := e.resoMix
  let resoMixStep := (e.resoMixTarget - resoMixCur) / (max 1 numSamples : ℕ)
  let mixThreshold : ℚ := 1e-6
  let resoActive := |resoMixCur| > mixThreshold ∨ |e.resoMixTarget| > mixThreshold
  let warmSamples : ℕ :=
    if resoActive ∧ resoMixCur ≤ mixThreshold ∧ resoMixStep > 0 then
      (jlimitI 0 numSamples ⌈(mixThreshold - resoMixCur) / resoMixStep⌉).toNat
    else 0
  if e.amount ≤ 0 ∨ e.activeStages ≤ 0 then (input, e)
  else
    let safeFreq := jlimit 20 20000 freqNow
    let safeShape := jlimit 0 1 shapeNow
    let freqBin := roundQ (1200 * M.log2 (safeFreq / 20))
    let shapeBin := roundQ (safeShape * 1000)
    let e1 :=
      if freqBin ≠ e.cachedFreqBin ∨ shapeBin ≠ e.cachedShapeBin then
        Engine.updateCoefficientsNow M
          { e with
            cachedFreq := safeFreq, cachedShape := safeShape
            cachedFreqBin := freqBin, cachedShapeBin := shapeBin }
          e.amount safeFreq safeShape
      else e
    if e1.reverse = false then
      let numStages := e1.activeStages.toNat
      let sCount := (jlimitI 1 4 e1.series).toNat
      let warm := forwardLoopMono numStages sCount outputGain resoMixStep mixThreshold false
        ⟨e1.nets, e1.resoLeft, resoMixCur⟩ (input.take warmSamples)
      let main := forwardLoopMono numStages sCount outputGain resoMixStep mixThreshold resoActive
        warm.2 (input.drop warmSamples)
      (warm.1 ++ main.1, { e1 with nets := main.2.nets, resoLeft := main.2.resoLeft })
    else
      let warm := Engine.reverseLoopMono outputGain resoMixStep mixThreshold false
        e1 resoMixCur (input.take warmSamples)
      let main := Engine.reverseLoopMono outputGain resoMixStep mixThreshold true
        warm.2.2 warm.2.1 (input.drop warmSamples)
      (warm.1 ++ main.1, main.2.2)

/-! ## The dual-engine crossfade controller (processor level, v3)

Embeddings of `prepareToPlay` (transition length), the transition blend
loop of `processBlock` (lines 2489-2553, `channels == 1` variant), the
transition completion logic (lines 2555-2569), `startTransitionIfNeeded`
(lines 2340-2378) and the stage-count rounding/hysteresis
(lines 2428-2439). -/

/-- The fixed transition length set by `prepareToPlay` (lines 2323-2324):
`clamp (round (0.050 * sampleRate), 16, 2^20)` samples (≈ 50 ms). -/
def transitionSamplesOf (sr : ℚ) : ℤ :=
  jlimitI 16 (2 ^ 20) (roundQ (0.050 * sr))

/-- The transition blend of one block (mono variant): `outA` is the active
engine's output (in the host buffer), `outB` the standby engine's output.
For the first `min (blockSize, safeLen - pos)` samples the output is
`(1 - t) * outA[n] + t * outB[n]` with `t = transitionPos / safeLen` and
`transitionPos` incremented per blended sample; the remaining samples copy
`outB`.  Returns the blended block and the advanced `transitionPos`. -/
def blendBlock (outA outB : List ℚ) (pos len : ℕ) : List ℚ × ℕ :=
  let safeLen := max 1 len
  let rampSamples := min outA.length (safeLen - pos)
  let out := (List.range outA.length).map (fun n =>
    if n < rampSamples then
      let t : ℚ := ((pos + n : ℕ) : ℚ) * (1 / (safeLen : ℚ))
      (1 - t) * outA.getD n 0 + t * outB.getD n 0
    else outB.getD n 0)
  (out, pos + rampSamples)

/-- The controller state driving the dual-engine crossfade (the relevant
fields of `DisperserAudioProcessor`; the engines themselves are tracked
only through the actions reported by the step functions). -/
structure XfadeState where
  cachedAmountKey : ℤ := -1
  cachedSeriesKey : ℤ := -1
  cachedReverseKey : Bool := false
  inTransition : Bool := false
  transitionSamples : ℤ := 0
  transitionPos : ℤ := 0
  hasPendingTopology : Bool := false
  pendingAmount : ℤ := 0
  pendingSeries : ℤ := 1
  pendingReverse : Bool := false
deriving DecidableEq

/-- `DisperserAudioProcessor::startTransitionIfNeeded` (lines 2340-2378).
The returned `Bool` reports whether `engB.setTopology` was called, i.e.
whether a new transition was started by this request. -/
def startTransitionIfNeeded (s : XfadeState) (newAmount0 newSeries0 : ℤ)
    (newReverse : Bool) : XfadeState × Bool :=
  let newAmount := jlimitI 0 256 newAmount0
  let newSeries := jlimitI 1 4 newSeries0
  let topoChanged := ¬ (newAmount = s.cachedAmountKey) ∨ ¬ (newSeries = s.cachedSeriesKey) ∨
    ¬ (newReverse = s.cachedReverseKey)
  if ¬ topoChanged then (s, false)
  else if s.inTransition then
    ({ s with
       hasPendingTopology := true
       pendingAmount := newAmount, pendingSeries := newSeries, pendingReverse := newReverse
       cachedAmountKey := newAmount, cachedSeriesKey := newSeries
       cachedReverseKey := newReverse }, false)
  else
    ({ s with
       inTransition := true
       transitionPos := 0
       cachedAmountKey := newAmount, cachedSeriesKey := newSeries
       cachedReverseKey := newReverse }, true)

/-- The transition completion step at the end of `processBlock`
(lines 2555-2569).  The first returned `Bool` reports whether the engines
were swapped (role labels flipped), the second whether a queued pending
topology started a fresh transition via `engB.setTopology`. -/
def completeTransitionIfDone (s : XfadeState) : XfadeState × Bool × Bool :=
  let safeLen := jmaxI 1 s.transitionSamples
  if s.transitionPos ≥ safeLen then
    let s1 : XfadeState := { s with inTransition := false, transitionPos := 0 }
    if s1.hasPendingTopology then
      ({ s1 with hasPendingTopology := false, inTransition := true, transitionPos := 0 },
       true, true)
    else (s1, true, false)
  else (s, false, false)

/-- The per-block stage-count rounding with hysteresis (lines 2428-2439):
round the smoothed continuous stage count, but hold the cached topology
key while the continuous value stays within ±0.6 of it. -/
def computeAmountNow (amountNowContinuous : ℚ) (cachedAmountKey : ℤ) : ℤ :=
  let amountNowRounded := jlimitI 0 256 (roundQ amountNowContinuous)
  if 0 ≤ cachedAmountKey then
    let lowerToChange := (cachedAmountKey : ℚ) - 0.60
    let upperToChange := (cachedAmountKey : ℚ) + 0.60
    if lowerToChange < amountNowContinuous ∧ amountNowContinuous < upperToChange then
      cachedAmountKey
    else amountNowRounded
  else amountNowRounded

/-! ## Spec-side definition for claim C6 (fractional stage blending) -/

/-- Modelled from the spec (§4.3): the claimed fractional-stage-count
forward step for one chain.  Split `v` into `baseStages = ⌊v⌋` and
`frac = v - baseStages`; run `baseStages` full stages; if `frac > eps` and
`baseStages < max`, run one additional stage and blend its output with its
input as `out = in + frac * (y - in)`.  No such mechanism exists in the
source; this definition exists to compare the claim against the code. -/
def specFractionalChain (eps : ℚ) (maxStages : ℕ) (v : ℚ)
    (stages : List StageState) (x : ℚ) : ℚ × List StageState :=
  let baseStages := ⌊v⌋.toNat
  let frac := v - (⌊v⌋ : ℚ)
  let r := runStagesMono baseStages stages x
  if frac > eps ∧ baseStages < maxStages then
    match r.2.drop baseStages with
    | [] => (r.1, r.2)
    | s :: _ =>
        let p := s.left.process r.1
        (r.1 + frac * (p.1 - r.1), r.2.set baseStages { s with left := p.2 })
  else (r.1, r.2)

/-- Modelled from the spec (§4.3): the fractional forward step applied to
each of the `sCount` chain instances in sequence. -/
def specFractionalChains (eps : ℚ) (maxStages : ℕ) (v : ℚ) :
    ℕ → List NetworkInstance → ℚ → ℚ × List NetworkInstance
  | 0, nets, x => (x, nets)
  | _ + 1, [], x => (x, [])
  | c + 1, net :: rest, x =>
      let s := specFractionalChain eps maxStages v net.stages x
      let r := specFractionalChains eps maxStages v c rest s.1
      (r.1, { stages := s.2 } :: r.2)

/-- Modelled from the spec (§4.3): the fractional forward path over a block
of samples (no output-gain or resonator stages are claimed by the spec
sentence, so none appear here). -/
def specFractionalForwardRun (eps : ℚ) (maxStages : ℕ) (v : ℚ) (sCount : ℕ) :
    List NetworkInstance → List ℚ → List ℚ × List NetworkInstance
  | nets, [] => ([], nets)
  | nets, x :: xs =>
      let s := specFractionalChains eps maxStages v sCount nets x
      let r := specFractionalForwardRun eps maxStages v sCount s.2 xs
      (s.1 :: r.1, r.2)

/-! ## Concrete example engines used by closed counterexamples/witnesses -/

/-- A reverse-mode engine whose stage count is zero (a legal state: the
host "Stages" parameter ranges over `[kAmountMin, kAmountMax] = [0, 256]`),
with a small freshly reset OLA state. -/
def zeroStageReverseEngine : Engine :=
  { sampleRate := 48000, maxWindowSamples := 12000
    amount := 0, activeStages := 0, series := 1, reverse := true
    stageCoeffA := [], nets := List.replicate 4 {}
    winN := 4, hopH := 2
    inRingL := List.replicate 4 0, inRingR := List.replicate 4 0
    olaRingL := List.replicate 8 0, olaRingR := List.replicate 8 0
    olaReadPos := 0, olaWritePos := 4, framesReady := false
    frameL := List.replicate 4 0, frameR := List.replicate 4 0
    winSqrt := List.replicate 4 1 }

/-- A forward-mode engine with two active stages of coefficient `1/2` in a
single chain, whose cached frequency/shape bins match `freqNow = 20`,
`shapeNow = 0` under `trivialRMath` (so `processBlock` does not recompute
coefficients). -/
def twoStageForwardEngine : Engine :=
  { sampleRate := 48000, maxWindowSamples := 12000
    amount := computeAmountNow (17 / 10) 1
    activeStages := 2, series := 1, reverse := false
    stageCoeffA := [1 / 2, 1 / 2]
    nets :=
      [{ stages := [{ left := { a := 1 / 2 }, right := { a := 1 / 2 } },
                    { left := { a := 1 / 2 }, right := { a := 1 / 2 } }] },
       {}, {}, {}]
    cachedFreqBin := 0, cachedShapeBin := 0 }

/-- A reverse-mode engine with one active stage and a freshly reset OLA
state for a window of 4 samples (`hopH = max 1 (4/2) = 2`, accumulator
ring of `2·4 = 8` positions, write cursor one window ahead of the read
cursor, no frame ready yet). -/
def coldReverseEngine : Engine :=
  { sampleRate := 48000, maxWindowSamples := 12000
    amount := 1, activeStages := 1, series := 1, reverse := true
    stageCoeffA := [1 / 2]
    nets := [{ stages := [{ left := { a := 1 / 2 }, right := { a := 1 / 2 } }] },
             {}, {}, {}]
    winN := 4, hopH := 2
    inRingL := List.replicate 4 0, inRingR := List.replicate 4 0
    olaRingL := List.replicate 8 0, olaRingR := List.replicate 8 0
    olaReadPos := 0, olaWritePos := 4, framesReady := false
    frameL := List.replicate 4 0, frameR := List.replicate 4 0
    winSqrt := List.replicate 4 1
    cachedFreqBin := 0, cachedShapeBin := 0 }

/-- The cold-start invariant of the reverse OLA state after `k` processed
samples (for `k ≤ winN`): the analysis geometry is fixed, the cursors sit
at their arithmetic positions, and every accumulator position from the
read cursor up to `winN` is still zero — which is exactly what makes the
first `winN` popped output samples zero. -/
structure ColdOla (N h olaSize k : ℕ) (e : Engine) : Prop where
  hN1 : 1 ≤ N
  hh : h = max 1 (N / 2)
  hsize : olaSize = 2 * N
  hwin : e.winN = N
  hhopf : e.hopH = h
  hlenL : e.olaRingL.length = olaSize
  hlenR : e.olaRingR.length = olaSize
  hready : e.framesReady = decide (h ≤ k)
  hread : e.olaReadPos = k - h
  hwrite : e.olaWritePos = (N + k / h * h) % olaSize
  hhopc : e.hopCounter = k % h
  hzeroL : ∀ p : ℕ, k - h ≤ p → p < N → e.olaRingL.getD p 0 = 0
  hzeroR : ∀ p : ℕ, k - h ≤ p → p < N → e.olaRingR.getD p 0 = 0

/-- The output gain passed to the engines by `processBlock` (line 2441):
`invPol ? -1.0f : 1.0f`. -/
def outputGainOf (invPol : Bool) : ℚ := if invPol then -1 else 1

/-! ## The per-stage frequency/coefficient derivation of `Engine::updateCoefficientsNow`

The quantities computed inline by the engine mapper (lines 3096-3247),
split into named definitions so theorems can speak about the derived
per-stage corner frequencies; `updateCoefficientsNow_stageCoeffA` below
proves (definitionally) that `updateCoefficientsNow` emits exactly these
values. -/

/-- `baseSpreadOct` (line 3097): `0.10 + 2.90 * pow (amountNorm a, 0.50)`. -/
def engBaseSpreadOct (M : RMath) (a : ℤ) : ℚ :=
  0.10 + 2.90 * M.powf (Engine.amountNorm a) 0.50

/-- `spreadOct` (line 3103): the base spread collapsed by shape. -/
def engSpreadOct (M : RMath) (a : ℤ) (shape : ℚ) : ℚ :=
  engBaseSpreadOct M a * (1 - jlimit 0 1 shape * 0.99)

/-- `fMin` after the geometric-mean-preserving adjustment and the absolute
clamp (lines 3116-3146): the lower edge of the per-stage frequency band. -/
def engFMin (M : RMath) (a : ℤ) (freqHz shape : ℚ) : ℚ :=
  let fMin0 := freqHz * M.powf 2 (-engSpreadOct M a shape)
  let fMax0 := freqHz * M.powf 2 (engSpreadOct M a shape)
  let adj1 : ℚ × ℚ := if fMin0 < 20 then (20, freqHz * freqHz / 20) else (fMin0, fMax0)
  let adj2 : ℚ × ℚ := if adj1.2 > 20000 then (freqHz * freqHz / 20000, 20000) else adj1
  jlimit 20 20000 adj2.1

/-- `fMax` after the same adjustment, the absolute clamp and the
`fMax <= fMin * 1.0001` degeneracy bump (lines 3116-3149). -/
def engFMax (M : RMath) (a : ℤ) (freqHz shape : ℚ) : ℚ :=
  let fMin0 := freqHz * M.powf 2 (-engSpreadOct M a shape)
  let fMax0 := freqHz * M.powf 2 (engSpreadOct M a shape)
  let adj1 : ℚ × ℚ := if fMin0 < 20 then (20, freqHz * freqHz / 20) else (fMin0, fMax0)
  let adj2 : ℚ × ℚ := if adj1.2 > 20000 then (freqHz * freqHz / 20000, 20000) else adj1
  let fMin1 := jlimit 20 20000 adj2.1
  let fMax1 := jlimit 20 20000 adj2.2
  if fMax1 ≤ fMin1 * 1.0001 then fMin1 * 1.0001 else fMax1

/-- `stageFreq` for stage `i` (lines 3166-3189): geometric interpolation
from `fMin` across the span with warp exponent `gamma`, then the
log-domain pinch blend toward the centre. -/
def engStageFreq (M : RMath) (a : ℤ) (numStages : ℕ) (freqHz shape : ℚ)
    (i : ℕ) : ℚ :=
  let shapeNorm := jlimit 0 1 shape
  let gamma := 1 + shapeNorm * 4
  let fMin1 := engFMin M a freqHz shape
  let fSpan := engFMax M a freqHz shape / fMin1
  let denom := max 1 (numStages - 1)
  let pinch := shapeNorm * 0.95
  let pos := (i : ℚ) / (denom : ℚ)
  let shaped := M.powf pos gamma
  let sf0 := jlimit 20 20000 (fMin1 * M.powf fSpan shaped)
  if pinch > 1e-6 then
    let lf := M.log sf0
    let lc := M.log (max 1e-6 freqHz)
    jlimit 20 20000 (M.exp ((1 - pinch) * lf + pinch * lc))
  else sf0

/-- The coefficient the engine mapper stores for stage `i`
(lines 3191-3247): the bilinear coefficient of the derived stage
frequency, pushed through the `aScale = 1` tan-domain round-trip and
clamped into `(-0.9999, 0.9999)`. -/
def engStageCoeff (M : RMath) (a : ℤ) (numStages : ℕ) (freqHz shape sr : ℚ)
    (i : ℕ) : ℚ :=
  let aa0 := Engine.allpassCoeffFromFreq M (engStageFreq M a numStages freqHz shape i) sr
  let t := (1 - aa0) / (1 + aa0)
  let tScaled := t * 1
  let aa1 := (1 - tScaled) / (1 + tScaled)
  jlimit (-0.9999) 0.9999 aa1

/-- A rational stand-in for the transcendental primitives with the
qualitative behaviour the comparisons below rely on: `pi` to zeroth
order 3, `tan` to first order the identity, and `powf b x` collapsed to
`b ^ sign x` — so `2^(negative) = 1/2 < 1 < 2 = 2^(positive)`, `b^0 = 1`
and `0^(positive) = 0`, exactly as for the real functions. -/
def affineTanRMath : RMath where
  pi := 3
  tan := fun x => x
  cos := fun _ => 0
  sin := fun _ => 0
  sqrt := fun _ => 0
  exp := fun _ => 1
  log := fun _ => 0
  log2 := fun _ => 0
  powf := fun b x => if x = 0 then 1 else if b = 0 then 0 else if 0 < x then b else 1 / b
  isFinite := fun _ => true

/-- The same primitives with every value flagged non-finite (modelling a
`tan()` overflow): used to compare the two coefficient routines'
handling of a non-finite tangent. -/
def nonFiniteTanRMath : RMath :=
  { affineTanRMath with isFinite := fun _ => false }

/-- `jlimit` is the identity inside the bounds. -/
theorem jlimit_of_mem (lo hi v : ℚ) (h1 : lo ≤ v) (h2 : v ≤ hi) :
    jlimit lo hi v = v := by
  unfold jlimit
  rw [if_neg (not_lt.mpr h1), if_neg (not_lt.mpr h2)]

/-- On a non-degenerate interval, `jlimit` agrees with the mathematical
clamp `max lo (min hi v)`. -/
theorem jlimit_eq_clamp (lo hi v : ℚ) (h : lo ≤ hi) :
    jlimit lo hi v = max lo (min hi v) := by
  unfold jlimit
  rcases lt_or_le v lo with hv | hv
  · rw [if_pos hv]
    rw [min_comm, min_eq_left (le_of_lt (lt_of_lt_of_le hv h))]
    exact (max_eq_left (le_of_lt hv)).symm
  · rw [if_neg (not_lt.mpr hv)]
    rcases lt_or_le hi v with hv2 | hv2
    · rw [if_pos hv2, min_eq_left (le_of_lt hv2), max_eq_right h]
    · rw [if_neg (not_lt.mpr hv2), min_eq_right hv2, max_eq_right hv]

/-- For every stage target frequency `f` and sample rate `sr` (with a
non-degenerate clamping range), the stage coefficient computed by the
legacy `calcAllPassCoeff` equals the specification's bilinear identity
`a = (1 - tan(π·f'/sr)) / (1 + tan(π·f'/sr))` with `f'` the frequency
clamped into `[20, 0.49·sr]`, and it is exactly `0` whenever the computed
tangent is non-finite. -/
theorem calcAllPassCoeff_eq_specStageCoefficient (M : RMath) (f sr : ℚ)
    (hsr : (20 : ℚ) ≤ 0.49 * sr) :
    calcAllPassCoeff M f sr = specStageCoefficient M f sr := by
  unfold calcAllPassCoeff specStageCoefficient
  rw [jlimit_eq_clamp 20 (0.49 * sr) f hsr]
  by_cases hfin : M.isFinite (M.tan (M.pi * max 20 (min (0.49 * sr) f) / sr)) = true
  · rw [if_neg (by simpa using hfin), if_pos hfin]
  · rw [if_pos (by simpa using hfin), if_neg hfin]

/-- With stage count 1, the legacy coefficient mapper (`updateCoefficients`,
through its explicit `N == 1` branch) returns exactly the direct
bilinear-transform coefficient of the requested centre frequency, for
every centre frequency in `[20, 0.49·sampleRate]` and every shape. -/
theorem updateCoefficients_single_stage_exact (M : RMath) (sr f shape : ℚ)
    (h1 : (20 : ℚ) ≤ f) (h2 : f ≤ 0.49 * sr) :
    updateCoefficients M sr f shape 1 = [calcAllPassCoeff M f sr] := by
  unfold updateCoefficients ucStageFreqList ucCenter
  rw [jlimit_of_mem 20 (0.49 * sr) f h1 h2]
  rfl

/-- C10.  When `Engine::processBlock` is invoked with `amount ≤ 0` or
`activeStages ≤ 0` it returns early: every sample keeps its input value
(in particular the output-polarity gain is not applied) and the entire
engine state is unmodified. -/
theorem processBlock_zero_stage_noop (M : RMath) (e : Engine) (input : List ℚ)
    (freqNow shapeNow outputGain : ℚ)
    (h : e.amount ≤ 0 ∨ e.activeStages ≤ 0) :
    Engine.processBlock M e input freqNow shapeNow outputGain = (input, e) := by
  simp only [Engine.processBlock]
  rw [if_pos h]

/-- Witness for C10 at a concrete input: the default-constructed engine has
`amount = 0`, and the block survives a `-1` output gain unchanged. -/
theorem processBlock_zero_stage_noop_witness :
    (({} : Engine).amount ≤ 0 ∨ ({} : Engine).activeStages ≤ 0) ∧
      Engine.processBlock trivialRMath {} [5, -3] 1000 0 (-1) = ([5, -3], ({} : Engine)) :=
  ⟨Or.inl (by decide),
    processBlock_zero_stage_noop trivialRMath {} [5, -3] 1000 0 (-1) (Or.inl (by decide))⟩

/-- C7 (counterexample).  In reverse mode with stage count zero the output
is NOT the ring-buffer-delayed input: a cold-started zero-stage reverse
engine fed the single sample `1` emits `1` (the current input) instead of
the delayed value `0`, and its input ring cursor does not advance. -/
theorem reverse_zero_stage_not_delayed_counterexample :
    (Engine.processBlock trivialRMath zeroStageReverseEngine [1] 20 0 1).1 = [1] ∧
      (Engine.processBlock trivialRMath zeroStageReverseEngine [1] 20 0 1).2.inWritePos =
        zeroStageReverseEngine.inWritePos ∧
      ¬ (Engine.processBlock trivialRMath zeroStageReverseEngine [1] 20 0 1).1 = [0] := by
  refine ⟨?_, ?_, ?_⟩ <;> decide

/-- C7 (amended).  In reverse mode with stage count zero, `processBlock` is
a no-op: the buffer is returned unmodified (the current input, with no
output gain applied) and no engine state — in particular the input ring
and its cursor — changes; the one-window delay does not apply. -/
theorem reverse_zero_stage_noop (M : RMath) (e : Engine) (input : List ℚ)
    (freqNow shapeNow outputGain : ℚ)
    (_hrev : e.reverse = true) (h : e.amount ≤ 0 ∨ e.activeStages ≤ 0) :
    Engine.processBlock M e input freqNow shapeNow outputGain = (input, e) := by
  simp only [Engine.processBlock]
  rw [if_pos h]

/-- Witness for the amended C7 at a concrete input. -/
theorem reverse_zero_stage_noop_witness :
    (zeroStageReverseEngine.reverse = true ∧ zeroStageReverseEngine.amount ≤ 0) ∧
      Engine.processBlock trivialRMath zeroStageReverseEngine [1, 2] 20 0 (-1) =
        ([1, 2], zeroStageReverseEngine) :=
  ⟨⟨by decide, by decide⟩,
    reverse_zero_stage_noop trivialRMath zeroStageReverseEngine [1, 2] 20 0 (-1)
      (by decide) (Or.inl (by decide))⟩

/-- C8.  At most one crossfade transition is ever in flight: (a) a topology
request arriving while a transition is in progress starts no second
transition (`engB.setTopology` is not called, `transitionPos` and the
in-flight flag are untouched) and is stored as the single pending
topology; (b) once the running transition completes, a stored pending
request immediately starts a fresh transition (position reset to 0) and
the pending slot is cleared. -/
theorem transition_request_queued_not_concurrent :
    (∀ (s : XfadeState) (a se : ℤ) (r : Bool),
      s.inTransition = true →
      (¬ (jlimitI 0 256 a = s.cachedAmountKey) ∨ ¬ (jlimitI 1 4 se = s.cachedSeriesKey) ∨
        ¬ (r = s.cachedReverseKey)) →
      startTransitionIfNeeded s a se r =
        ({ s with
           hasPendingTopology := true
           pendingAmount := jlimitI 0 256 a
           pendingSeries := jlimitI 1 4 se
           pendingReverse := r
           cachedAmountKey := jlimitI 0 256 a
           cachedSeriesKey := jlimitI 1 4 se
           cachedReverseKey := r }, false)) ∧
    (∀ s : XfadeState,
      s.transitionPos ≥ jmaxI 1 s.transitionSamples →
      s.hasPendingTopology = true →
      completeTransitionIfDone s =
        ({ s with inTransition := true, transitionPos := 0, hasPendingTopology := false },
         true, true)) := by
  constructor
  · intro s a se r hin hch
    unfold startTransitionIfNeeded
    rw [if_neg (not_not_intro hch), if_pos hin]
  · intro s hpos hpend
    unfold completeTransitionIfDone
    rw [if_pos hpos, if_pos hpend]

/-- Witness for C8 at concrete controller states. -/
theorem transition_request_queued_not_concurrent_witness :
    startTransitionIfNeeded
        { cachedAmountKey := 32, cachedSeriesKey := 1, cachedReverseKey := false
          inTransition := true, transitionSamples := 2400, transitionPos := 100 }
        64 2 false =
      ({ cachedAmountKey := 64, cachedSeriesKey := 2, cachedReverseKey := false
         inTransition := true, transitionSamples := 2400, transitionPos := 100
         hasPendingTopology := true, pendingAmount := 64, pendingSeries := 2
         pendingReverse := false }, false) ∧
    completeTransitionIfDone
        { cachedAmountKey := 64, cachedSeriesKey := 2, cachedReverseKey := false
          inTransition := true, transitionSamples := 2400, transitionPos := 2400
          hasPendingTopology := true, pendingAmount := 64, pendingSeries := 2
          pendingReverse := false } =
      ({ cachedAmountKey := 64, cachedSeriesKey := 2, cachedReverseKey := false
         inTransition := true, transitionSamples := 2400, transitionPos := 0
         hasPendingTopology := false, pendingAmount := 64, pendingSeries := 2
         pendingReverse := false }, true, true) := by
  constructor
  · exact (transition_request_queued_not_concurrent.1 _ 64 2 false (by decide)
      (Or.inl (by decide))).trans (by decide)
  · exact (transition_request_queued_not_concurrent.2 _ (by decide) (by decide)).trans (by decide)

/-- Indexing a mapped range list. -/
theorem getD_map_range (f : ℕ → ℚ) (d : ℚ) {m n : ℕ} (h : n < m) :
    ((List.range m).map f).getD n d = f n := by
  rw [List.getD_eq_getElem?_getD, List.getElem?_map, List.getElem?_range h]
  rfl

/-- C1.  During a crossfade, each block is blended sample-by-sample: the
first `min (blockSize, remainingRampSamples)` output samples equal
`(1 - t) * engineA + t * engineB` with `t = transitionPos / transitionLength`
and the position advancing by exactly one per blended sample; every sample
after the ramp is taken entirely from the new engine; and the transition
length is fixed by `prepareToPlay` at `round (0.050 * sampleRate)` samples
(≈ 50 ms) whenever that value lies in the legal clamp range `[16, 2^20]`. -/
theorem crossfade_blend_formula :
    (∀ (outA outB : List ℚ) (pos len : ℕ), 1 ≤ len →
      ((∀ n : ℕ, n < min outA.length (len - pos) →
          (blendBlock outA outB pos len).1.getD n 0 =
            (1 - ((pos + n : ℕ) : ℚ) / (len : ℚ)) * outA.getD n 0 +
              (((pos + n : ℕ) : ℚ) / (len : ℚ)) * outB.getD n 0) ∧
        (∀ n : ℕ, min outA.length (len - pos) ≤ n → n < outA.length →
          (blendBlock outA outB pos len).1.getD n 0 = outB.getD n 0) ∧
        (blendBlock outA outB pos len).2 = pos + min outA.length (len - pos))) ∧
    (∀ sr : ℚ, 16 ≤ roundQ (0.050 * sr) → roundQ (0.050 * sr) ≤ 2 ^ 20 →
      transitionSamplesOf sr = roundQ (0.050 * sr)) := by
  constructor
  · intro outA outB pos len hlen
    have hmax : max 1 len = len := Nat.max_eq_right hlen
    refine ⟨?_, ?_, ?_⟩
    · intro n hn
      simp only [blendBlock, hmax]
      rw [getD_map_range _ _ (lt_of_lt_of_le hn (min_le_left _ _)), if_pos hn, mul_one_div]
    · intro n h1 h2
      simp only [blendBlock, hmax]
      rw [getD_map_range _ _ h2, if_neg (not_lt.mpr h1)]
    · simp only [blendBlock, hmax]
  · intro sr h1 h2
    unfold transitionSamplesOf jlimitI
    rw [if_neg (not_lt.mpr h1), if_neg (not_lt.mpr h2)]

/-- Witness for C1 at a concrete input. -/
theorem crossfade_blend_formula_witness :
    ((blendBlock [4, 8] [12, 16] 3 16).1.getD 0 0 =
        (1 - ((3 + 0 : ℕ) : ℚ) / (16 : ℚ)) * ([4, 8] : List ℚ).getD 0 0 +
          (((3 + 0 : ℕ) : ℚ) / (16 : ℚ)) * ([12, 16] : List ℚ).getD 0 0) ∧
      (blendBlock [4, 8] [12, 16] 3 16).2 = 3 + min ([4, 8] : List ℚ).length (16 - 3) ∧
      transitionSamplesOf 48000 = roundQ (0.050 * 48000) :=
  ⟨(crossfade_blend_formula.1 [4, 8] [12, 16] 3 16 (by decide)).1 0 (by decide),
    (crossfade_blend_formula.1 [4, 8] [12, 16] 3 16 (by decide)).2.2,
    crossfade_blend_formula.2 48000 (by norm_num [roundQ]) (by norm_num [roundQ])⟩

/-- C6 (counterexample).  The forward path does not implement the claimed
fractional stage blending: with the smoothed stage-count value `1.7`
(cached key 1) the code rounds to 2 whole stages, so on a unit impulse a
two-half-coefficient chain outputs `1/4`, while the claimed
`baseStages = 1, frac = 0.7` blend would output `1/40`. -/
theorem fractional_stage_blending_counterexample :
    (Engine.processBlock trivialRMath twoStageForwardEngine [1] 20 0 1).1 ≠
      (specFractionalForwardRun (1e-6) 256 (17 / 10) 1 twoStageForwardEngine.nets [1]).1 := by
  have hcode : (Engine.processBlock trivialRMath twoStageForwardEngine [1] 20 0 1).1 = [1 / 4] := by
    norm_num [Engine.processBlock, twoStageForwardEngine, computeAmountNow, jlimitI, jlimit,
      roundQ, trivialRMath, forwardLoopMono, chainsMono, runStagesMono, Allpass1.process]
  have hspec :
      (specFractionalForwardRun (1e-6) 256 (17 / 10) 1 twoStageForwardEngine.nets [1]).1 =
        [1 / 40] := by
    norm_num [specFractionalForwardRun, specFractionalChains, specFractionalChain,
      twoStageForwardEngine, runStagesMono, Allpass1.process]
  rw [hcode, hspec]
  intro h
  exact absurd (List.head_eq_of_cons_eq h) (by norm_num)

/-- C6 (amended).  The forward path runs a whole number of stages: the
smoothed stage-count value is rounded to the nearest integer (held by a
±0.6 hysteresis band around the cached topology key), and for a whole
stage count the spec's fractional-blend formula degenerates to exactly the
code's full-stage chain processing (`frac = 0`, no extra blended stage). -/
theorem forward_path_integer_stage_count :
    (∀ (eps : ℚ) (k : ℕ) (st : List StageState) (x : ℚ), 0 ≤ eps →
      specFractionalChain eps 256 (k : ℚ) st x = runStagesMono k st x) ∧
    (∀ (v : ℚ) (key : ℤ), 0 ≤ key →
      (((key : ℚ) - 0.60 < v ∧ v < (key : ℚ) + 0.60) → computeAmountNow v key = key) ∧
      (¬ ((key : ℚ) - 0.60 < v ∧ v < (key : ℚ) + 0.60) →
        computeAmountNow v key = jlimitI 0 256 (roundQ v))) := by
  constructor
  · intro eps k st x heps
    unfold specFractionalChain
    have hfl : ⌊(k : ℚ)⌋ = (k : ℤ) := Int.floor_natCast k
    rw [hfl]
    simp only [Int.toNat_natCast, Int.cast_natCast, sub_self]
    rw [if_neg (fun h => absurd h.1 (not_lt.mpr heps))]
  · intro v key hkey
    constructor
    · intro h
      unfold computeAmountNow
      rw [if_pos hkey, if_pos h]
    · intro h
      unfold computeAmountNow
      rw [if_pos hkey, if_neg h]

/-- Witness for the amended C6 at concrete inputs. -/
theorem forward_path_integer_stage_count_witness :
    specFractionalChain 0 256 ((2 : ℕ) : ℚ) [{ left := { a := 1 } }] 3 =
      runStagesMono 2 [{ left := { a := 1 } }] 3 ∧
    computeAmountNow (17 / 10) 1 = jlimitI 0 256 (roundQ (17 / 10)) :=
  ⟨forward_path_integer_stage_count.1 0 2 [{ left := { a := 1 } }] 3 le_rfl,
    (forward_path_integer_stage_count.2 (17 / 10) 1 (by norm_num)).2 (by norm_num)⟩

/-- The forward block loop scales its outputs linearly by the output gain
and evolves its state (chains, resonator, loop mix value) independently of
it, provided the loop-local mix value is `0` and does not move (this is
the only reachable configuration: `resoMix`/`resoMixTarget` are never set
to anything but `0` in this revision). -/
theorem forwardLoopMono_gain (n c : ℕ) (g thr : ℚ) (wm : Bool) (hthr : 0 ≤ thr) :
    ∀ (inputs : List ℚ) (nets : List NetworkInstance) (rl : Allpass1),
      forwardLoopMono n c g 0 thr wm ⟨nets, rl, 0⟩ inputs =
        ((forwardLoopMono n c 1 0 thr wm ⟨nets, rl, 0⟩ inputs).1.map (fun x => x * g),
          (forwardLoopMono n c 1 0 thr wm ⟨nets, rl, 0⟩ inputs).2) := by
  intro inputs
  induction inputs with
  | nil => intro nets rl; rfl
  | cons x xs ih =>
      intro nets rl
      have hbr : ¬ (wm = true ∧ thr < (0 : ℚ)) := fun h => absurd h.2 (not_lt.mpr hthr)
      simp only [forwardLoopMono]
      rw [if_neg hbr, if_neg hbr]
      simp only [add_zero]
      rw [ih (chainsMono n c nets x).2 rl]
      simp [mul_one]

/-- The reverse block loop scales its outputs linearly by the output gain
and evolves the whole engine state independently of it, under the same
zero-mix configuration. -/
theorem reverseLoopMono_gain (g thr : ℚ) (wm : Bool) (hthr : 0 ≤ thr) :
    ∀ (inputs : List ℚ) (e : Engine),
      Engine.reverseLoopMono g 0 thr wm e 0 inputs =
        ((Engine.reverseLoopMono 1 0 thr wm e 0 inputs).1.map (fun x => x * g),
          (Engine.reverseLoopMono 1 0 thr wm e 0 inputs).2) := by
  intro inputs
  induction inputs with
  | nil => intro e; rfl
  | cons x xs ih =>
      intro e
      have hbr : ¬ (wm = true ∧ thr < (0 : ℚ)) := fun h => absurd h.2 (not_lt.mpr hthr)
      simp only [Engine.reverseLoopMono, Engine.reverseStepMono]
      rw [if_neg hbr, if_neg hbr]
      simp only [add_zero]
      rw [ih]
      simp [mul_one]

/-- `Engine::processBlock` factors the output gain out of every sample: for
a (reachable) engine with zero resonator mix and a positive stage count,
running with gain `g` yields exactly the gain-1 outputs scaled by `g`, and
the identical final engine state. -/
theorem processBlock_gain (M : RMath) (e : Engine) (input : List ℚ) (f s g : ℚ)
    (h0 : e.resoMix = 0) (h1 : e.resoMixTarget = 0)
    (hamt : ¬ (e.amount ≤ 0 ∨ e.activeStages ≤ 0)) :
    Engine.processBlock M e input f s g =
      ((Engine.processBlock M e input f s 1).1.map (fun x => x * g),
        (Engine.processBlock M e input f s 1).2) := by
  simp only [Engine.processBlock, h0, h1, sub_self, zero_div, lt_self_iff_false, and_false,
    if_false, List.take_zero, List.drop_zero]
  rw [if_neg hamt, if_neg hamt]
  simp only [forwardLoopMono, Engine.reverseLoopMono]
  split_ifs with hbin hrev hrev
  · rw [forwardLoopMono_gain _ _ g _ _ (by norm_num) input]
    simp
  · rw [reverseLoopMono_gain g _ _ (by norm_num) input]
    simp
  · rw [forwardLoopMono_gain _ _ g _ _ (by norm_num) input]
    simp
  · rw [reverseLoopMono_gain g _ _ (by norm_num) input]
    simp

/-- C9 (amended).  With the INV flag set (`outputGain = -1`, line 2441),
an engine that actually processes (stage count ≥ 1) and is in the only
reachable resonator-mix configuration (`resoMix = resoMixTarget = 0`)
produces, sample-for-sample, exactly `-1` times the output of the
identical run with INV clear, with an identical final engine state.  When
the stage count is 0 both runs return the buffer unchanged instead. -/
theorem inv_flag_negates_output (M : RMath) (e : Engine) (input : List ℚ) (f s : ℚ)
    (h0 : e.resoMix = 0) (h1 : e.resoMixTarget = 0)
    (hamt : ¬ (e.amount ≤ 0 ∨ e.activeStages ≤ 0)) :
    Engine.processBlock M e input f s (outputGainOf true) =
      ((Engine.processBlock M e input f s (outputGainOf false)).1.map (fun x => -x),
        (Engine.processBlock M e input f s (outputGainOf false)).2) := by
  have hg := processBlock_gain M e input f s (-1) h0 h1 hamt
  have hm : ∀ l : List ℚ, l.map (fun x => x * (-1)) = l.map (fun x => -x) := by
    intro l
    simp [mul_neg_one]
  rw [show outputGainOf true = -1 from rfl, show outputGainOf false = 1 from rfl, hg, hm]

/-- Witness for the amended C9 at a concrete input. -/
theorem inv_flag_negates_output_witness :
    (twoStageForwardEngine.resoMix = 0 ∧
      ¬ (twoStageForwardEngine.amount ≤ 0 ∨ twoStageForwardEngine.activeStages ≤ 0)) ∧
      Engine.processBlock trivialRMath twoStageForwardEngine [1, 2] 20 0 (outputGainOf true) =
        ((Engine.processBlock trivialRMath twoStageForwardEngine [1, 2] 20 0
            (outputGainOf false)).1.map (fun x => -x),
          (Engine.processBlock trivialRMath twoStageForwardEngine [1, 2] 20 0
            (outputGainOf false)).2) :=
  ⟨⟨rfl, by norm_num [twoStageForwardEngine, computeAmountNow, roundQ, jlimitI]⟩,
    inv_flag_negates_output trivialRMath twoStageForwardEngine [1, 2] 20 0 rfl rfl
      (by norm_num [twoStageForwardEngine, computeAmountNow, roundQ, jlimitI])⟩

/-- C9 (counterexample).  The claim fails at the parameter setting
stage count = 0 (a legal host value): the engine early-returns without
applying the `×(-1)` gain, so the INV run's output equals the input
`[1]` and not `-1` times the non-INV run's output. -/
theorem inv_flag_zero_stage_counterexample :
    ¬ ((Engine.processBlock trivialRMath {} [1] 20 0 (outputGainOf true)).1 =
        (Engine.processBlock trivialRMath {} [1] 20 0 (outputGainOf false)).1.map
          (fun x => -x)) := by
  have h : ∀ gq : ℚ, Engine.processBlock trivialRMath {} [1] 20 0 gq = ([1], {}) := by
    intro gq
    simp only [Engine.processBlock]
    rw [if_pos (Or.inl (by decide : ({} : Engine).amount ≤ 0))]
  rw [h, h]
  simp only [List.map_cons, List.map_nil]
  intro hcontra
  exact absurd (List.head_eq_of_cons_eq hcontra) (by norm_num)

/-! ### Helper lemmas for the monotone spread law (claim C5) -/

/-- `getD` through a `set` at a different index. -/
theorem getD_set_ne (l : List ℚ) (i j : ℕ) (v : ℚ) (h : i ≠ j) :
    (l.set i v).getD j 0 = l.getD j 0 := by
  rw [List.getD_eq_getElem?_getD, List.getD_eq_getElem?_getD, List.getElem?_set_ne h]

/-- A zero-filled ring reads zero everywhere (in and out of range). -/
theorem getD_replicate_zero (n p : ℕ) : (List.replicate n (0 : ℚ)).getD p 0 = 0 := by
  rw [List.getD_eq_getElem?_getD, List.getElem?_replicate]
  split <;> rfl

/-- The OLA accumulation loop preserves the ring length. -/
theorem length_olaAddInto (f : ℕ → ℕ) (win frame : List ℚ) :
    ∀ (n : ℕ) (r : List ℚ), (olaAddInto f win frame n r).length = r.length := by
  intro n
  induction n with
  | zero => intro r; rfl
  | succ m ih =>
      intro r
      simp only [olaAddInto, List.length_set]
      exact ih r

/-- The OLA accumulation loop leaves untouched every ring position outside
its write-index image. -/
theorem getD_olaAddInto_ne (f : ℕ → ℕ) (win frame : List ℚ) (q : ℕ) :
    ∀ (n : ℕ) (r : List ℚ), (∀ i : ℕ, i < n → f i ≠ q) →
      (olaAddInto f win frame n r).getD q 0 = r.getD q 0 := by
  intro n
  induction n with
  | zero => intro r _; rfl
  | succ m ih =>
      intro r hq
      simp only [olaAddInto]
      rw [getD_set_ne _ _ _ _ (hq m (by omega))]
      exact ih r (fun i hi => hq i (by omega))

/-- `grabLastNToFrame` only writes the frame buffers. -/
theorem grabLastNToFrame_fields (e : Engine) :
    (e.grabLastNToFrame).winN = e.winN ∧ (e.grabLastNToFrame).hopH = e.hopH ∧
      (e.grabLastNToFrame).olaRingL = e.olaRingL ∧
      (e.grabLastNToFrame).olaRingR = e.olaRingR ∧
      (e.grabLastNToFrame).olaReadPos = e.olaReadPos ∧
      (e.grabLastNToFrame).olaWritePos = e.olaWritePos ∧
      (e.grabLastNToFrame).framesReady = e.framesReady ∧
      (e.grabLastNToFrame).hopCounter = e.hopCounter ∧
      (e.grabLastNToFrame).winSqrt = e.winSqrt := by
  unfold Engine.grabLastNToFrame
  exact ⟨rfl, rfl, rfl, rfl, rfl, rfl, rfl, rfl, rfl⟩

/-- `processFrameReverseIR` only writes the networks and frame buffers. -/
theorem processFrameReverseIR_fields (e : Engine) :
    (e.processFrameReverseIR).winN = e.winN ∧ (e.processFrameReverseIR).hopH = e.hopH ∧
      (e.processFrameReverseIR).olaRingL = e.olaRingL ∧
      (e.processFrameReverseIR).olaRingR = e.olaRingR ∧
      (e.processFrameReverseIR).olaReadPos = e.olaReadPos ∧
      (e.processFrameReverseIR).olaWritePos = e.olaWritePos ∧
      (e.processFrameReverseIR).framesReady = e.framesReady ∧
      (e.processFrameReverseIR).hopCounter = e.hopCounter ∧
      (e.processFrameReverseIR).winSqrt = e.winSqrt := by
  unfold Engine.processFrameReverseIR
  split_ifs
  · exact ⟨rfl, rfl, rfl, rfl, rfl, rfl, rfl, rfl, rfl⟩
  · exact ⟨rfl, rfl, rfl, rfl, rfl, rfl, rfl, rfl, rfl⟩

/-- The reverse block loop emits exactly one output sample per input
sample. -/
theorem reverseLoopMono_length (g step thr : ℚ) (wm : Bool) :
    ∀ (inputs : List ℚ) (e : Engine) (cur : ℚ),
      (Engine.reverseLoopMono g step thr wm e cur inputs).1.length = inputs.length := by
  intro inputs
  induction inputs with
  | nil => intro e cur; rfl
  | cons x xs ih =>
      intro e cur
      simp only [Engine.reverseLoopMono, List.length_cons]
      rw [ih]

/-- Division/remainder of `k + 1` by the hop size when sample `k` completes
a hop (`k % h = h - 1`): the remainder resets and the hop-aligned prefix
grows by one hop. -/
theorem succ_div_mod_frame (k h : ℕ) (hh : 0 < h) (hmod : k % h = h - 1) :
    (k + 1) % h = 0 ∧ (k + 1) / h * h = k / h * h + h := by
  have hdm : k / h * h + k % h = k := by
    rw [Nat.mul_comm]; exact Nat.div_add_mod k h
  have h1 : k + 1 = (k / h + 1) * h := by
    rw [add_mul, one_mul]; omega
  have h2 : (k + 1) / h = k / h + 1 := by
    rw [h1, Nat.mul_div_cancel _ hh]
  refine ⟨?_, ?_⟩
  · rw [h1]; exact Nat.mul_mod_left _ _
  · rw [h2, add_mul, one_mul]

/-- Division/remainder of `k + 1` by the hop size in the middle of a hop
(`k % h + 1 < h`): the remainder advances and the quotient is unchanged. -/
theorem succ_div_mod_noframe (k h : ℕ) (hh : 0 < h) (hmod : k % h + 1 < h) :
    (k + 1) % h = k % h + 1 ∧ (k + 1) / h = k / h := by
  have hdm : h * (k / h) + k % h = k := Nat.div_add_mod k h
  have h1 : k + 1 = h * (k / h) + (k % h + 1) := by omega
  refine ⟨?_, ?_⟩
  · rw [h1, Nat.mul_add_mod, Nat.mod_eq_of_lt hmod]
  · rw [h1, Nat.mul_add_div hh, Nat.div_eq_of_lt hmod, add_zero]

/-- The OLA bookkeeping effect of `olaAddFrame`: window geometry, ring
lengths, read cursor and hop counter are untouched, the write cursor
advances one hop with wrap-around, and `framesReady` is set. -/
theorem olaAddFrame_fields (e : Engine) :
    (e.olaAddFrame).winN = e.winN ∧ (e.olaAddFrame).hopH = e.hopH ∧
      (e.olaAddFrame).olaRingL.length = e.olaRingL.length ∧
      (e.olaAddFrame).olaRingR.length = e.olaRingR.length ∧
      (e.olaAddFrame).olaReadPos = e.olaReadPos ∧
      (e.olaAddFrame).olaWritePos =
        (if e.olaWritePos + e.hopH ≥ e.olaRingL.length then
          e.olaWritePos + e.hopH - e.olaRingL.length
         else e.olaWritePos + e.hopH) ∧
      (e.olaAddFrame).framesReady = true ∧
      (e.olaAddFrame).hopCounter = e.hopCounter := by
  refine ⟨rfl, rfl, ?_, ?_, rfl, rfl, rfl, rfl⟩ <;>
    simp only [Engine.olaAddFrame, length_olaAddInto]

/-- `olaAddFrame` with the write cursor in the upper half of the ring
(`olaWritePos = winN + w`, `w ≤ winN`) never touches an accumulator
position in `[w, winN)`: the contiguous part of the frame lands at
`[winN + w, 2·winN)` and the wrap-around tail at `[0, w)`. -/
theorem olaAddFrame_getD_preserved (N w : ℕ) (e : Engine)
    (hwin : e.winN = N) (hlenL : e.olaRingL.length = 2 * N)
    (hwp : e.olaWritePos = N + w) (hwN : w ≤ N)
    (p : ℕ) (hp1 : w ≤ p) (hp2 : p < N) :
    (e.olaAddFrame).olaRingL.getD p 0 = e.olaRingL.getD p 0 ∧
      (e.olaAddFrame).olaRingR.getD p 0 = e.olaRingR.getD p 0 := by
  have hidx : ∀ i : ℕ, i < N →
      olaWriteIndex (min N (2 * N - (N + w))) (N + w) i ≠ p := by
    intro i hi
    unfold olaWriteIndex
    split_ifs with hif <;> omega
  constructor <;>
  · simp only [Engine.olaAddFrame, hlenL, hwp, hwin]
    exact getD_olaAddInto_ne _ _ _ p N _ hidx

/-- Completing an analysis frame from a cold state: if after `k + 1 ≤ winN`
input samples a hop boundary is reached (`k % h = h - 1`), then grabbing
the window, processing it and overlap-adding it advances the cold
invariant to `k + 1` — the freshly written frame lands entirely outside
the still-unread zero region `[(k + 1) - h, winN)` of the accumulator. -/
theorem frame_advance_cold (N h k : ℕ) (f : Engine)
    (hN1 : 1 ≤ N) (hhmax : h = max 1 (N / 2)) (hk : k < N) (hmod : k % h = h - 1)
    (hwin : f.winN = N) (hhopf : f.hopH = h)
    (hlenL : f.olaRingL.length = 2 * N) (hlenR : f.olaRingR.length = 2 * N)
    (hread : f.olaReadPos = (k + 1) - h)
    (hwrite : f.olaWritePos = N + k / h * h)
    (hhopc : f.hopCounter = 0)
    (hzeroL : ∀ p : ℕ, (k + 1) - h ≤ p → p < N → f.olaRingL.getD p 0 = 0)
    (hzeroR : ∀ p : ℕ, (k + 1) - h ≤ p → p < N → f.olaRingR.getD p 0 = 0) :
    ColdOla N h (2 * N) (k + 1)
      ((f.grabLastNToFrame).processFrameReverseIR.olaAddFrame) := by
  have hh1 : 1 ≤ h := by omega
  have hhN : h ≤ N := by omega
  have hdm : k / h * h + k % h = k := by
    rw [Nat.mul_comm]; exact Nat.div_add_mod k h
  have hmk : k % h ≤ k := Nat.mod_le k h
  obtain ⟨hm0, hdvds⟩ := succ_div_mod_frame k h (by omega) hmod
  have hweq : k / h * h = (k + 1) - h := by omega
  obtain ⟨g1, g2, g3, g4, g5, g6, g7, g8, g9⟩ := grabLastNToFrame_fields f
  obtain ⟨p1, p2, p3, p4, p5, p6, p7, p8, p9⟩ :=
    processFrameReverseIR_fields f.grabLastNToFrame
  set q : Engine := (f.grabLastNToFrame).processFrameReverseIR with hq
  have qwin : q.winN = N := by rw [hq, p1, g1, hwin]
  have qhop : q.hopH = h := by rw [hq, p2, g2, hhopf]
  have qringL : q.olaRingL = f.olaRingL := by rw [hq, p3, g3]
  have qringR : q.olaRingR = f.olaRingR := by rw [hq, p4, g4]
  have qlenL : q.olaRingL.length = 2 * N := by rw [qringL]; exact hlenL
  have qlenR : q.olaRingR.length = 2 * N := by rw [qringR]; exact hlenR
  have qread : q.olaReadPos = (k + 1) - h := by rw [hq, p5, g5, hread]
  have qwrite : q.olaWritePos = N + k / h * h := by rw [hq, p6, g6, hwrite]
  have qhopc : q.hopCounter = 0 := by rw [hq, p8, g8, hhopc]
  obtain ⟨a1, a2, a3, a4, a5, a6, a7, a8⟩ := olaAddFrame_fields q
  refine ⟨hN1, hhmax, rfl, ?_, ?_, ?_, ?_, ?_, ?_, ?_, ?_, ?_, ?_⟩
  · rw [a1, qwin]
  · rw [a2, qhop]
  · rw [a3, qlenL]
  · rw [a4, qlenR]
  · rw [a7]; exact (decide_eq_true (by omega)).symm
  · rw [a5, qread]
  · rw [a6, qwrite, qhop, qlenL, hdvds]
    rcases Nat.lt_or_ge (N + (k / h * h + h)) (2 * N) with hlt | hge
    · rw [if_neg (by omega), Nat.mod_eq_of_lt hlt]; omega
    · have h2 : N + (k / h * h + h) = 2 * N := by omega
      rw [if_pos (by omega), h2, Nat.mod_self]; omega
  · rw [a8, qhopc, hm0]
  · intro p hp1 hp2
    rw [(olaAddFrame_getD_preserved N (k / h * h) q qwin qlenL qwrite (by omega)
      p (by omega) hp2).1, qringL]
    exact hzeroL p hp1 hp2
  · intro p hp1 hp2
    rw [(olaAddFrame_getD_preserved N (k / h * h) q qwin qlenL qwrite (by omega)
      p (by omega) hp2).2, qringR]
    exact hzeroR p hp1 hp2

/-- One sample of the reverse loop from a cold state with `k < winN`
samples already processed: the popped output sample is exactly zero (the
pop either returns the not-ready zero or reads a still-zero accumulator
position), the loop-local resonator-mix value stays 0, and the cold
invariant advances to `k + 1`. -/
theorem reverseStepMono_cold (N h olaSize k : ℕ) (g thr x : ℚ) (wm : Bool)
    (hthr : 0 ≤ thr) (e : Engine) (inv : ColdOla N h olaSize k e) (hk : k < N) :
    (e.reverseStepMono g 0 thr wm 0 x).1.1 = 0 ∧
      (e.reverseStepMono g 0 thr wm 0 x).1.2 = 0 ∧
      ColdOla N h olaSize (k + 1) (e.reverseStepMono g 0 thr wm 0 x).2 := by
  obtain ⟨hN1, hh, hsize, hwin, hhopf, hlenL, hlenR, hready, hread, hwrite,
    hhopc, hzeroL, hzeroR⟩ := inv
  subst hsize
  have hh1 : 1 ≤ h := by omega
  have hhN : h ≤ N := by omega
  have hkh : k % h < h := Nat.mod_lt _ (by omega)
  have hdm : k / h * h + k % h = k := by
    rw [Nat.mul_comm]; exact Nat.div_add_mod k h
  have hwk : k / h * h ≤ k := by omega
  have hwlt : N + k / h * h < 2 * N := by omega
  have hwrite' : e.olaWritePos = N + k / h * h := by
    rw [hwrite, Nat.mod_eq_of_lt hwlt]
  have hbr : ¬(wm = true ∧ (0 : ℚ) > thr) := fun hc => absurd hc.2 (not_lt.mpr hthr)
  by_cases hpop : h ≤ k
  · -- a frame is ready: the pop reads (and clears) a still-zero position
    have hfr : e.framesReady = true := by rw [hready]; exact decide_eq_true hpop
    have hnotf : ¬(e.framesReady = false) := by rw [hfr]; simp
    by_cases hhop : k % h + 1 ≥ h
    · -- the sample also completes a hop: a fresh frame is overlap-added
      have hmod : k % h = h - 1 := by omega
      simp only [Engine.reverseStepMono, Engine.olaPopStereo, if_neg hnotf,
        if_neg hbr, hhopc, hhopf, if_pos hhop]
      refine ⟨?_, by norm_num, ?_⟩
      · rw [hread, hzeroL (k - h) le_rfl (by omega), zero_mul]
      · refine frame_advance_cold N h k _ hN1 hh hk hmod hwin rfl
          ?_ ?_ ?_ hwrite' rfl ?_ ?_
        · show (e.olaRingL.set e.olaReadPos 0).length = 2 * N
          rw [List.length_set]; exact hlenL
        · show (e.olaRingR.set e.olaReadPos 0).length = 2 * N
          rw [List.length_set]; exact hlenR
        · show (if e.olaReadPos + 1 ≥ (e.olaRingL.set e.olaReadPos 0).length
              then 0 else e.olaReadPos + 1) = (k + 1) - h
          rw [List.length_set, hlenL, hread, if_neg (by omega)]
          omega
        · intro p hp1 hp2
          show (e.olaRingL.set e.olaReadPos 0).getD p 0 = 0
          rw [hread, getD_set_ne _ _ _ _ (by omega : k - h ≠ p)]
          exact hzeroL p (by omega) hp2
        · intro p hp1 hp2
          show (e.olaRingR.set e.olaReadPos 0).getD p 0 = 0
          rw [hread, getD_set_ne _ _ _ _ (by omega : k - h ≠ p)]
          exact hzeroR p (by omega) hp2
    · -- mid-hop pop
      obtain ⟨hsm, hsd⟩ := succ_div_mod_noframe k h (by omega) (by omega)
      simp only [Engine.reverseStepMono, Engine.olaPopStereo, if_neg hnotf,
        if_neg hbr, hhopc, hhopf, if_neg hhop]
      refine ⟨?_, by norm_num, ?_⟩
      · rw [hread, hzeroL (k - h) le_rfl (by omega), zero_mul]
      · refine ⟨hN1, hh, rfl, hwin, rfl, ?_, ?_, ?_, ?_, ?_, ?_, ?_, ?_⟩
        · show (e.olaRingL.set e.olaReadPos 0).length = 2 * N
          rw [List.length_set]; exact hlenL
        · show (e.olaRingR.set e.olaReadPos 0).length = 2 * N
          rw [List.length_set]; exact hlenR
        · show e.framesReady = decide (h ≤ k + 1)
          rw [hfr]; exact (decide_eq_true (by omega)).symm
        · show (if e.olaReadPos + 1 ≥ (e.olaRingL.set e.olaReadPos 0).length
              then 0 else e.olaReadPos + 1) = (k + 1) - h
          rw [List.length_set, hlenL, hread, if_neg (by omega)]
          omega
        · show e.olaWritePos = (N + (k + 1) / h * h) % (2 * N)
          rw [hwrite', hsd, Nat.mod_eq_of_lt hwlt]
        · show k % h + 1 = (k + 1) % h
          rw [hsm]
        · intro p hp1 hp2
          show (e.olaRingL.set e.olaReadPos 0).getD p 0 = 0
          rw [hread, getD_set_ne _ _ _ _ (by omega : k - h ≠ p)]
          exact hzeroL p (by omega) hp2
        · intro p hp1 hp2
          show (e.olaRingR.set e.olaReadPos 0).getD p 0 = 0
          rw [hread, getD_set_ne _ _ _ _ (by omega : k - h ≠ p)]
          exact hzeroR p (by omega) hp2
  · -- no frame ready yet: the pop yields the not-ready zero
    have hfr : e.framesReady = false := by rw [hready]; exact decide_eq_false hpop
    have hkmod : k % h = k := Nat.mod_eq_of_lt (by omega)
    by_cases hhop : k % h + 1 ≥ h
    · -- the very first frame completes at `k + 1 = h`
      have hmod : k % h = h - 1 := by omega
      simp only [Engine.reverseStepMono, Engine.olaPopStereo, if_pos hfr,
        if_neg hbr, hhopc, hhopf, if_pos hhop]
      refine ⟨by norm_num, by norm_num, ?_⟩
      refine frame_advance_cold N h k _ hN1 hh hk hmod hwin rfl hlenL hlenR
        ?_ hwrite' rfl ?_ ?_
      · show e.olaReadPos = (k + 1) - h
        rw [hread]; omega
      · intro p hp1 hp2
        exact hzeroL p (by omega) hp2
      · intro p hp1 hp2
        exact hzeroR p (by omega) hp2
    · -- still filling the very first analysis window
      obtain ⟨hsm, hsd⟩ := succ_div_mod_noframe k h (by omega) (by omega)
      simp only [Engine.reverseStepMono, Engine.olaPopStereo, if_pos hfr,
        if_neg hbr, hhopc, hhopf, if_neg hhop]
      refine ⟨by norm_num, by norm_num, ?_⟩
      refine ⟨hN1, hh, rfl, hwin, rfl, hlenL, hlenR, ?_, ?_, ?_, ?_, ?_, ?_⟩
      · show e.framesReady = decide (h ≤ k + 1)
        rw [hfr]; exact (decide_eq_false (by omega)).symm
      · show e.olaReadPos = (k + 1) - h
        rw [hread]; omega
      · show e.olaWritePos = (N + (k + 1) / h * h) % (2 * N)
        rw [hwrite', hsd, Nat.mod_eq_of_lt hwlt]
      · show k % h + 1 = (k + 1) % h
        rw [hsm]
      · intro p hp1 hp2
        exact hzeroL p (by omega) hp2
      · intro p hp1 hp2
        exact hzeroR p (by omega) hp2

/-- The reverse loop with a zero resonator-mix step, run from a cold
state: as long as the block does not outlast the first analysis window
(`k + length ≤ winN`), every emitted output sample is zero, the mix value
stays 0, and the cold invariant advances by the block length. -/
theorem reverseLoopMono_cold (N h olaSize : ℕ) (g thr : ℚ) (wm : Bool)
    (hthr : 0 ≤ thr) :
    ∀ (inputs : List ℚ) (k : ℕ) (e : Engine), ColdOla N h olaSize k e →
      k + inputs.length ≤ N →
      (Engine.reverseLoopMono g 0 thr wm e 0 inputs).1 =
          List.replicate inputs.length 0 ∧
        (Engine.reverseLoopMono g 0 thr wm e 0 inputs).2.1 = 0 ∧
        ColdOla N h olaSize (k + inputs.length)
          (Engine.reverseLoopMono g 0 thr wm e 0 inputs).2.2 := by
  intro inputs
  induction inputs with
  | nil =>
      intro k e inv _
      exact ⟨rfl, rfl, inv⟩
  | cons y ys ih =>
      intro k e inv hlen
      have hky : k < N := by
        simp only [List.length_cons] at hlen; omega
      obtain ⟨hs1, hs2, hs3⟩ :=
        reverseStepMono_cold N h olaSize k g thr y wm hthr e inv hky
      simp only [Engine.reverseLoopMono, List.length_cons, hs1, hs2]
      obtain ⟨ih1, ih2, ih3⟩ := ih (k + 1) _ hs3
        (by simp only [List.length_cons] at hlen; omega)
      refine ⟨?_, ih2, ?_⟩
      · rw [List.replicate_succ, ih1]
      · have hfix : k + (ys.length + 1) = k + 1 + ys.length := by omega
        rw [hfix]
        exact ih3

/-- The warm-up/main two-phase reverse run of `Engine::processBlock` (the
warm-up part without the resonator-mix branch over some prefix, the main
part with it over the rest), from a cold state with a zero mix step: the
whole block comes out as zeros, however the block is split. -/
theorem reverseTwoPhase_cold (N h olaSize : ℕ) (g thr : ℚ) (e : Engine)
    (input : List ℚ) (n : ℕ) (hthr : 0 ≤ thr)
    (hcold : ColdOla N h olaSize 0 e) (hlen : input.length ≤ N) :
    (Engine.reverseLoopMono g 0 thr false e 0 (input.take n)).1 ++
        (Engine.reverseLoopMono g 0 thr true
          (Engine.reverseLoopMono g 0 thr false e 0 (input.take n)).2.2
          (Engine.reverseLoopMono g 0 thr false e 0 (input.take n)).2.1
          (input.drop n)).1 =
      List.replicate input.length 0 := by
  have hlt : (input.take n).length ≤ input.length := by
    rw [List.length_take]; omega
  obtain ⟨w1, w2, w3⟩ := reverseLoopMono_cold N h olaSize g thr false hthr
    (input.take n) 0 e hcold (by omega)
  rw [w1, w2]
  have h3 : ColdOla N h olaSize ((input.take n).length)
      (Engine.reverseLoopMono g 0 thr false e 0 (input.take n)).2.2 := by
    have hz : 0 + (input.take n).length = (input.take n).length := by omega
    rw [← hz]
    exact w3
  obtain ⟨m1, m2, m3⟩ := reverseLoopMono_cold N h olaSize g thr true hthr
    (input.drop n) ((input.take n).length) _ h3
    (by rw [List.length_take, List.length_drop]; omega)
  rw [m1, ← List.replicate_add]
  congr 1
  rw [List.length_take, List.length_drop]
  omega

/-- `Engine::updateCoefficientsNow` recomputes coefficients, resonator and
cascade settings only: the reverse flag and the whole OLA bookkeeping
(window geometry, rings, cursors, ready flag, hop counter) are untouched;
this helper states the same for `applyCoefficientsToNetworks`. -/
theorem applyCoefficientsToNetworks_fields (e : Engine) :
    (e.applyCoefficientsToNetworks).winN = e.winN ∧
      (e.applyCoefficientsToNetworks).hopH = e.hopH ∧
      (e.applyCoefficientsToNetworks).olaRingL = e.olaRingL ∧
      (e.applyCoefficientsToNetworks).olaRingR = e.olaRingR ∧
      (e.applyCoefficientsToNetworks).olaReadPos = e.olaReadPos ∧
      (e.applyCoefficientsToNetworks).olaWritePos = e.olaWritePos ∧
      (e.applyCoefficientsToNetworks).framesReady = e.framesReady ∧
      (e.applyCoefficientsToNetworks).hopCounter = e.hopCounter ∧
      (e.applyCoefficientsToNetworks).reverse = e.reverse := by
  unfold Engine.applyCoefficientsToNetworks
  simp only []
  split <;> exact ⟨rfl, rfl, rfl, rfl, rfl, rfl, rfl, rfl, rfl⟩

/-- `Engine::updateCoefficientsNow` recomputes coefficients, resonator and
cascade settings only: the reverse flag and the whole OLA bookkeeping
(window geometry, rings, cursors, ready flag, hop counter) are untouched. -/
theorem updateCoefficientsNow_ola_fields (M : RMath) (e : Engine) (a : ℤ)
    (f s : ℚ) :
    (Engine.updateCoefficientsNow M e a f s).winN = e.winN ∧
      (Engine.updateCoefficientsNow M e a f s).hopH = e.hopH ∧
      (Engine.updateCoefficientsNow M e a f s).olaRingL = e.olaRingL ∧
      (Engine.updateCoefficientsNow M e a f s).olaRingR = e.olaRingR ∧
      (Engine.updateCoefficientsNow M e a f s).olaReadPos = e.olaReadPos ∧
      (Engine.updateCoefficientsNow M e a f s).olaWritePos = e.olaWritePos ∧
      (Engine.updateCoefficientsNow M e a f s).framesReady = e.framesReady ∧
      (Engine.updateCoefficientsNow M e a f s).hopCounter = e.hopCounter ∧
      (Engine.updateCoefficientsNow M e a f s).reverse = e.reverse := by
  unfold Engine.updateCoefficientsNow
  refine ⟨?_, ?_, ?_, ?_, ?_, ?_, ?_, ?_, ?_⟩
  · show (if e.activeStages ≤ 0 ∨ e.sampleRate ≤ 0 then e else _).winN = e.winN
    split
    · rfl
    · exact (applyCoefficientsToNetworks_fields _).1
  · show (if e.activeStages ≤ 0 ∨ e.sampleRate ≤ 0 then e else _).hopH = e.hopH
    split
    · rfl
    · exact (applyCoefficientsToNetworks_fields _).2.1
  · show (if e.activeStages ≤ 0 ∨ e.sampleRate ≤ 0 then e
        else _).olaRingL = e.olaRingL
    split
    · rfl
    · exact (applyCoefficientsToNetworks_fields _).2.2.1
  · show (if e.activeStages ≤ 0 ∨ e.sampleRate ≤ 0 then e
        else _).olaRingR = e.olaRingR
    split
    · rfl
    · exact (applyCoefficientsToNetworks_fields _).2.2.2.1
  · show (if e.activeStages ≤ 0 ∨ e.sampleRate ≤ 0 then e
        else _).olaReadPos = e.olaReadPos
    split
    · rfl
    · exact (applyCoefficientsToNetworks_fields _).2.2.2.2.1
  · show (if e.activeStages ≤ 0 ∨ e.sampleRate ≤ 0 then e
        else _).olaWritePos = e.olaWritePos
    split
    · rfl
    · exact (applyCoefficientsToNetworks_fields _).2.2.2.2.2.1
  · show (if e.activeStages ≤ 0 ∨ e.sampleRate ≤ 0 then e
        else _).framesReady = e.framesReady
    split
    · rfl
    · exact (applyCoefficientsToNetworks_fields _).2.2.2.2.2.2.1
  · show (if e.activeStages ≤ 0 ∨ e.sampleRate ≤ 0 then e
        else _).hopCounter = e.hopCounter
    split
    · rfl
    · exact (applyCoefficientsToNetworks_fields _).2.2.2.2.2.2.2.1
  · show (if e.activeStages ≤ 0 ∨ e.sampleRate ≤ 0 then e else _).reverse = e.reverse
    split
    · rfl
    · exact (applyCoefficientsToNetworks_fields _).2.2.2.2.2.2.2.2

/-- The cold invariant survives a coefficient recomputation. -/
theorem ColdOla_updateCoefficientsNow (M : RMath) (N h olaSize k : ℕ)
    (e : Engine) (a : ℤ) (f s : ℚ) (hc : ColdOla N h olaSize k e) :
    ColdOla N h olaSize k (Engine.updateCoefficientsNow M e a f s) := by
  obtain ⟨u1, u2, u3, u4, u5, u6, u7, u8, u9⟩ :=
    updateCoefficientsNow_ola_fields M e a f s
  refine ⟨hc.hN1, hc.hh, hc.hsize, ?_, ?_, ?_, ?_, ?_, ?_, ?_, ?_, ?_, ?_⟩
  · rw [u1, hc.hwin]
  · rw [u2, hc.hhopf]
  · rw [u3, hc.hlenL]
  · rw [u4, hc.hlenR]
  · rw [u7, hc.hready]
  · rw [u5, hc.hread]
  · rw [u6, hc.hwrite]
  · rw [u8, hc.hhopc]
  · intro p hp1 hp2
    rw [u3]
    exact hc.hzeroL p hp1 hp2
  · intro p hp1 hp2
    rw [u4]
    exact hc.hzeroR p hp1 hp2

/-- `Engine::resetReverseOLA` establishes the cold invariant at `k = 0`:
geometry from the clamped window length, zeroed rings, read cursor 0,
write cursor one window ahead, no frame ready. -/
theorem resetReverseOLA_cold (M : RMath) (e : Engine) (newN : ℤ) (N : ℕ)
    (hN : (jlimitI 1 e.maxWindowSamples newN).toNat = N) (hN1 : 1 ≤ N) :
    ColdOla N (max 1 (N / 2)) (2 * N) 0 (Engine.resetReverseOLA M e newN) := by
  refine ⟨hN1, rfl, rfl, ?_, ?_, ?_, ?_, ?_, ?_, ?_, ?_, ?_, ?_⟩
  · simp only [Engine.resetReverseOLA, hN]
  · simp only [Engine.resetReverseOLA, hN]
  · simp only [Engine.resetReverseOLA, hN, List.length_replicate]
    omega
  · simp only [Engine.resetReverseOLA, hN, List.length_replicate]
    omega
  · simp only [Engine.resetReverseOLA, hN]
    exact (decide_eq_false (by omega)).symm
  · simp only [Engine.resetReverseOLA, hN]
    omega
  · simp only [Engine.resetReverseOLA, hN]
    rw [if_neg (by omega), Nat.zero_div, Nat.zero_mul, Nat.add_zero, Nat.zero_add]
    exact (Nat.mod_eq_of_lt (by omega)).symm
  · simp only [Engine.resetReverseOLA, hN]
    exact (Nat.zero_mod _).symm
  · intro p _ _
    simp only [Engine.resetReverseOLA, hN]
    exact getD_replicate_zero _ p
  · intro p _ _
    simp only [Engine.resetReverseOLA, hN]
    exact getD_replicate_zero _ p

/-- The cold invariant is preserved by an `if` whose branches both
satisfy it (used for the conditionally recomputed engine inside
`Engine::processBlock`). -/
theorem ColdOla_ite (N h olaSize k : ℕ) (b : Prop) [inst : Decidable b]
    (u v : Engine) (hu : ColdOla N h olaSize k u) (hv : ColdOla N h olaSize k v) :
    ColdOla N h olaSize k (if b then u else v) := by
  split
  · exact hu
  · exact hv

/-- The reverse flag of an `if` whose branches both have it set. -/
theorem reverse_of_ite (b : Prop) [inst : Decidable b] (u v : Engine)
    (hu : u.reverse = true) (hv : v.reverse = true) :
    (if b then u else v).reverse = true := by
  split
  · exact hu
  · exact hv

/-- The forward/reverse dispatch of `Engine::processBlock` on a cold
reverse-mode engine: the reverse branch (warm-up plus main loop, however
the block is split) produces exactly zeros for a block no longer than
the analysis window. -/
theorem coldReverseBranches (N h olaSize : ℕ) (g : ℚ) (e1 : Engine)
    (input : List ℚ) (n : ℕ) (other : List ℚ × Engine)
    (hcold : ColdOla N h olaSize 0 e1) (hrev : e1.reverse = true)
    (hlen : input.length ≤ N) :
    (if e1.reverse = false then other
     else
       ((Engine.reverseLoopMono g 0 1e-6 false e1 0 (input.take n)).1 ++
          (Engine.reverseLoopMono g 0 1e-6 true
            (Engine.reverseLoopMono g 0 1e-6 false e1 0 (input.take n)).2.2
            (Engine.reverseLoopMono g 0 1e-6 false e1 0 (input.take n)).2.1
            (input.drop n)).1,
        (Engine.reverseLoopMono g 0 1e-6 true
          (Engine.reverseLoopMono g 0 1e-6 false e1 0 (input.take n)).2.2
          (Engine.reverseLoopMono g 0 1e-6 false e1 0 (input.take n)).2.1
          (input.drop n)).2.2)).1 =
      List.replicate input.length 0 := by
  rw [if_neg (by rw [hrev]; simp)]
  exact reverseTwoPhase_cold N h olaSize g 1e-6 e1 input n (by norm_num)
    hcold hlen

/-- C4: In reverse mode, a cold-started engine (OLA state freshly reset,
no frame yet completed — the state `resetReverseOLA` leaves behind, here
the invariant `ColdOla` at `k = 0`) outputs exactly zero for the first
`windowSamples` output samples: for any block no longer than the analysis
window `winN`, `Engine::processBlock` returns an all-zero buffer whatever
the input samples, the frequency/shape values and the output gain,
reflecting the one-window latency of reverse mode. -/
theorem reverse_cold_start_window_silence (M : RMath) (N h olaSize : ℕ)
    (e : Engine) (input : List ℚ) (freqNow shapeNow outputGain : ℚ)
    (hcold : ColdOla N h olaSize 0 e) (hrev : e.reverse = true)
    (hmix : e.resoMix = 0) (hmixT : e.resoMixTarget = 0)
    (hamt : 0 < e.amount) (hstg : 0 < e.activeStages)
    (hlen : input.length ≤ N) :
    (Engine.processBlock M e input freqNow shapeNow outputGain).1 =
      List.replicate input.length 0 := by
  have hg : ¬(e.amount ≤ 0 ∨ e.activeStages ≤ 0) := by
    rintro (hc | hc) <;> omega
  simp only [Engine.processBlock, hmix, hmixT, sub_self, zero_div, if_neg hg]
  refine coldReverseBranches N h olaSize outputGain _ input _ _
    (ColdOla_ite N h olaSize 0 _ _ _
      (ColdOla_updateCoefficientsNow M N h olaSize 0 _ e.amount _ _
        ⟨hcold.hN1, hcold.hh, hcold.hsize, hcold.hwin, hcold.hhopf,
         hcold.hlenL, hcold.hlenR, hcold.hready, hcold.hread, hcold.hwrite,
         hcold.hhopc, hcold.hzeroL, hcold.hzeroR⟩)
      hcold)
    (reverse_of_ite _ _ _
      ((updateCoefficientsNow_ola_fields M _ e.amount _ _).2.2.2.2.2.2.2.2.trans
        hrev)
      hrev)
    hlen

theorem reverse_cold_start_window_silence_witness :
    coldReverseEngine.reverse = true ∧
      (Engine.processBlock trivialRMath coldReverseEngine [3, 1, 4] 20 0 1).1 =
        List.replicate 3 0 :=
  ⟨rfl,
   reverse_cold_start_window_silence trivialRMath 4 2 8 coldReverseEngine
     [3, 1, 4] 20 0 1
     ⟨by decide, by decide, by decide, rfl, rfl, rfl, rfl, rfl, rfl, by decide,
      by decide, fun p _ _ => getD_replicate_zero 8 p,
      fun p _ _ => getD_replicate_zero 8 p⟩
     rfl rfl rfl (by decide) (by decide) (by decide)⟩

/-! ### Tying the extracted engine mapper quantities to `updateCoefficientsNow` -/

/-- `jlimit` lands inside its (ordered) bounds. -/
theorem jlimit_mem_of_le (lo hi v : ℚ) (h : lo ≤ hi) :
    lo ≤ jlimit lo hi v ∧ jlimit lo hi v ≤ hi := by
  unfold jlimit
  split_ifs <;> constructor <;> linarith

/-- `applyCoefficientsToNetworks` does not touch the coefficient vector. -/
theorem applyCoefficientsToNetworks_stageCoeffA (e : Engine) :
    (e.applyCoefficientsToNetworks).stageCoeffA = e.stageCoeffA := by
  unfold Engine.applyCoefficientsToNetworks
  simp only []
  split <;> rfl

/-- Outside its early return, `Engine::updateCoefficientsNow` stores
exactly the extracted per-stage coefficients `engStageCoeff` (one per
active stage): the named definitions above are definitionally the
mapper's inline computation. -/
theorem updateCoefficientsNow_stageCoeffA (M : RMath) (e : Engine) (a : ℤ)
    (f s : ℚ) (h : ¬(e.activeStages ≤ 0 ∨ e.sampleRate ≤ 0)) :
    (Engine.updateCoefficientsNow M e a f s).stageCoeffA =
      (List.range e.activeStages.toNat).map
        (engStageCoeff M a e.activeStages.toNat f s e.sampleRate) := by
  unfold Engine.updateCoefficientsNow
  show (if e.activeStages ≤ 0 ∨ e.sampleRate ≤ 0 then e else _).stageCoeffA = _
  rw [if_neg h]
  show (Engine.applyCoefficientsToNetworks _).stageCoeffA = _
  rw [applyCoefficientsToNetworks_stageCoeffA]
  rfl

/-! ### Claim C3: the two coefficient routines -/

/-- The engine coefficient routine at a concrete rational interpretation
(`pi = 3`, `tan = id` to first order): `Engine::allpassCoeffFromFreq`
clamps the frequency into the fixed band `[20, 20000]` instead of the
claimed `[20, 0.49·sampleRate]` — at `sr = 1000` and `f = 10000` it uses
`f = 10000` where the claimed identity uses `f' = 490` — and it computes
the bilinear formula even when every tangent is flagged non-finite,
where the claimed fallback demands exactly `0`. -/
theorem engine_allpass_coeff_counterexample :
    Engine.allpassCoeffFromFreq affineTanRMath 10000 1000 = -29 / 31 ∧
      specStageCoefficient affineTanRMath 10000 1000 = -47 / 247 ∧
      ((-29 : ℚ) / 31) ≠ -47 / 247 ∧
      Engine.allpassCoeffFromFreq nonFiniteTanRMath 10000 1000 = -29 / 31 ∧
      specStageCoefficient nonFiniteTanRMath 10000 1000 = 0 := by
  refine ⟨?_, ?_, by norm_num, ?_, ?_⟩ <;>
    norm_num [Engine.allpassCoeffFromFreq, specStageCoefficient,
      affineTanRMath, nonFiniteTanRMath, jlimit]

/-- C3.  The bilinear stage-coefficient identity, split by routine: the
legacy `calcAllPassCoeff` computes exactly the claimed formula (frequency
clamped into `[20, 0.49·sampleRate]`, `a = (1-tan)/(1+tan)`, exactly `0`
on a non-finite tangent); the engine's `allpassCoeffFromFreq` instead
clamps the frequency into the fixed band `[20, 20000]` (pre-clamping to
that band is invariant, independently of the sample rate), clamps the
resulting coefficient into `[-0.9999, 0.9999]`, and consults no
finiteness information at all (its result depends only on `pi` and
`tan`, never on `isFinite`). -/
theorem allpass_coefficient_identity_split (M : RMath) :
    (∀ f sr : ℚ, (20 : ℚ) ≤ 0.49 * sr →
      calcAllPassCoeff M f sr = specStageCoefficient M f sr) ∧
      (∀ f sr : ℚ, Engine.allpassCoeffFromFreq M f sr =
        Engine.allpassCoeffFromFreq M (jlimit 20 20000 f) sr) ∧
      (∀ f sr : ℚ, -0.9999 ≤ Engine.allpassCoeffFromFreq M f sr ∧
        Engine.allpassCoeffFromFreq M f sr ≤ 0.9999) ∧
      (∀ (M' : RMath) (f sr : ℚ), M.pi = M'.pi → M.tan = M'.tan →
        Engine.allpassCoeffFromFreq M f sr =
          Engine.allpassCoeffFromFreq M' f sr) := by
  refine ⟨fun f sr h => calcAllPassCoeff_eq_specStageCoefficient M f sr h,
    ?_, ?_, ?_⟩
  · intro f sr
    unfold Engine.allpassCoeffFromFreq
    rw [jlimit_of_mem 20 20000 (jlimit 20 20000 f)
      (jlimit_mem_of_le 20 20000 f (by norm_num)).1
      (jlimit_mem_of_le 20 20000 f (by norm_num)).2]
  · intro f sr
    unfold Engine.allpassCoeffFromFreq
    exact jlimit_mem_of_le _ _ _ (by norm_num)
  · intro M' f sr hpi htan
    unfold Engine.allpassCoeffFromFreq
    rw [hpi, htan]

theorem allpass_coefficient_identity_split_witness :
    ((20 : ℚ) ≤ 0.49 * 48000 ∧
      calcAllPassCoeff trivialRMath 100 48000 =
        specStageCoefficient trivialRMath 100 48000) ∧
      (affineTanRMath.pi = nonFiniteTanRMath.pi ∧
        affineTanRMath.tan = nonFiniteTanRMath.tan ∧
        Engine.allpassCoeffFromFreq affineTanRMath 10000 1000 =
          Engine.allpassCoeffFromFreq nonFiniteTanRMath 10000 1000) :=
  ⟨⟨by norm_num,
    (allpass_coefficient_identity_split trivialRMath).1 100 48000 (by norm_num)⟩,
   rfl, rfl,
   (allpass_coefficient_identity_split affineTanRMath).2.2.2 nonFiniteTanRMath
     10000 1000 rfl rfl⟩

/-! ### Claim C2: single-stage behaviour of the two mappers -/

/-- The lower spread edge lies in the absolute band `[20, 20000]`. -/
theorem engFMin_mem (M : RMath) (a : ℤ) (f s : ℚ) :
    20 ≤ engFMin M a f s ∧ engFMin M a f s ≤ 20000 := by
  unfold engFMin
  exact jlimit_mem_of_le _ _ _ (by norm_num)

/-- At shape 0 (pinch off) the engine mapper's single stage (`pos = 0`)
sits exactly at the lower spread edge `fMin`, not at the centre. -/
theorem engStageFreq_single_low_edge (M : RMath) (a : ℤ) (f : ℚ)
    (hpb0 : ∀ b : ℚ, M.powf b 0 = 1) (hp00 : M.powf 0 1 = 0) :
    engStageFreq M a 1 f 0 0 = engFMin M a f 0 := by
  have hj0 : jlimit 0 1 (0 : ℚ) = 0 := by norm_num [jlimit]
  have hmem := engFMin_mem M a f 0
  simp only [engStageFreq, hj0, zero_mul, add_zero, Nat.cast_zero, zero_div]
  rw [if_neg (by norm_num : ¬((0 : ℚ) > 1e-6)), hp00, hpb0, mul_one]
  exact jlimit_of_mem _ _ _ hmem.1 hmem.2

/-- The engine mapper with one active stage at a concrete rational
interpretation (`pi = 3`, `tan = id`, `powf b x = b ^ sign x`): the
single stage's coefficient is `31/33` — the bilinear coefficient of the
lower spread edge `fMin = 1000 · 2^(-spreadOct) = 500` — while the
direct bilinear coefficient of the requested centre `1000` is `15/17`,
so single-stage exactness fails for `Engine::updateCoefficientsNow`. -/
theorem engine_single_stage_counterexample :
    (Engine.updateCoefficientsNow affineTanRMath coldReverseEngine 1 1000 0).stageCoeffA =
        [31 / 33] ∧
      Engine.allpassCoeffFromFreq affineTanRMath 1000 48000 = 15 / 17 ∧
      ((31 : ℚ) / 33) ≠ 15 / 17 := by
  refine ⟨?_, ?_, by norm_num⟩
  · rw [updateCoefficientsNow_stageCoeffA affineTanRMath coldReverseEngine 1 1000 0
      (by norm_num [coldReverseEngine])]
    have hmap : (List.range coldReverseEngine.activeStages.toNat).map
        (engStageCoeff affineTanRMath 1 coldReverseEngine.activeStages.toNat
          1000 0 coldReverseEngine.sampleRate) =
        [engStageCoeff affineTanRMath 1 1 1000 0 48000 0] := rfl
    rw [hmap]
    norm_num [engStageCoeff, engStageFreq,
      engFMin, engFMax, engSpreadOct, engBaseSpreadOct, Engine.amountNorm,
      Engine.allpassCoeffFromFreq, affineTanRMath, jlimit]
  · norm_num [Engine.allpassCoeffFromFreq, affineTanRMath, jlimit]

/-- C2.  Single-stage behaviour, split by mapper: the legacy mapper
(`updateCoefficients`, explicit `N == 1` branch, lines 182-186) returns
exactly the direct bilinear coefficient of the centre frequency for
every centre in `[20, 0.49·sampleRate]` and every shape; the engine
mapper (`Engine::updateCoefficientsNow`) has no such branch — with one
active stage it stores exactly the coefficient `engStageCoeff ... 0` of
its stage-0 derived frequency, and (at shape 0, where the pinch blend is
off) that frequency is the lower spread edge `fMin` rather than the
centre, so the engine's single-stage coefficient tracks
`clamp(f·2^(-spreadOct))`, not `f`. -/
theorem single_stage_exactness_split (M : RMath) :
    (∀ sr f shape : ℚ, (20 : ℚ) ≤ f → f ≤ 0.49 * sr →
      updateCoefficients M sr f shape 1 = [calcAllPassCoeff M f sr]) ∧
      (∀ (e : Engine) (a : ℤ) (f : ℚ), e.activeStages = 1 → 0 < e.sampleRate →
        (∀ b : ℚ, M.powf b 0 = 1) → M.powf 0 1 = 0 →
        (Engine.updateCoefficientsNow M e a f 0).stageCoeffA =
            [engStageCoeff M a 1 f 0 e.sampleRate 0] ∧
          engStageFreq M a 1 f 0 0 = engFMin M a f 0) := by
  refine ⟨fun sr f shape h1 h2 =>
    updateCoefficients_single_stage_exact M sr f shape h1 h2, ?_⟩
  intro e a f hstg hsr hpb0 hp00
  have hguard : ¬(e.activeStages ≤ 0 ∨ e.sampleRate ≤ 0) := by
    rintro (hc | hc)
    · rw [hstg] at hc; omega
    · linarith
  refine ⟨?_, engStageFreq_single_low_edge M a f hpb0 hp00⟩
  rw [updateCoefficientsNow_stageCoeffA M e a f 0 hguard, hstg]
  rfl

theorem single_stage_exactness_split_witness :
    (updateCoefficients trivialRMath 48000 1000 (3 / 10) 1 =
        [calcAllPassCoeff trivialRMath 1000 48000]) ∧
      ((Engine.updateCoefficientsNow affineTanRMath coldReverseEngine 1 1000 0).stageCoeffA =
          [engStageCoeff affineTanRMath 1 1 1000 0 coldReverseEngine.sampleRate 0] ∧
        engStageFreq affineTanRMath 1 1 1000 0 0 = engFMin affineTanRMath 1 1000 0) :=
  ⟨(single_stage_exactness_split trivialRMath).1 48000 1000 (3 / 10)
      (by norm_num) (by norm_num),
   (single_stage_exactness_split affineTanRMath).2 coldReverseEngine 1 1000 rfl
      (by norm_num [coldReverseEngine])
      (fun b => by norm_num [affineTanRMath])
      (by norm_num [affineTanRMath])⟩

/-! ### Claim C5: the engine mapper's spread geometry -/

